import Mathlib

/-!
Shallow embedding of the offset-tree reduction core
(src/vowpalwabbit/offset_tree.cc): the minimum-depth binary tree builder
(min_depth_binary_tree::build_tree) and the score-propagation predictor
(offset_tree::predict), together with the learn stub.

Machine floats are modelled by exact rationals, uint32_t counters by Nat.
The external base learner (base.predict followed by reading
ec.pred.a_s[0].score and ec.pred.a_s[1].score) is modelled by a function
from the internal-node index to a pair of rationals.  Thrown exceptions
are modelled by returning the resulting state together with an optional
error value.
-/

set_option autoImplicit false

/-- Node of the tree, mirroring struct tree_node (offset_tree.cc lines 10-22):
an id, the two child ids (meaningless for leaves) and a leaf flag.
Equality is structural, as for the C++ operator==. -/
structure tree_node where
  id : Nat
  left_id : Nat
  right_id : Nat
  is_leaf : Bool
deriving DecidableEq

instance : Inhabited tree_node := ⟨⟨0, 0, 0, true⟩⟩

/-- State of a min_depth_binary_tree: the flat node list, the root index,
the leaf count (_num_leaf_nodes, default 0) and the _initialized flag
(default false). -/
structure min_depth_binary_tree where
  nodes : List tree_node := []
  root_idx : Nat := 0
  num_leaf_nodes : Nat := 0
  initialized : Bool := false
deriving DecidableEq

instance : Inhabited min_depth_binary_tree := ⟨{}⟩

/-- Errors thrown by build_tree: the already-initialized mismatch throw
(line 31) and the bad_alloc rethrow (line 79). -/
inductive build_error where
  | configConflict
  | outOfMemory
deriving DecidableEq

/-- Consecutive pairing of one tournament round (lines 64-70):
j-th pair is (tournaments[2j], tournaments[2j+1]); a trailing unpaired
element is left out here and handled by the carry in round_ts. -/
def pairUp : List Nat → List (Nat × Nat)
  | a :: b :: rest => (a, b) :: pairUp rest
  | _ => []

/-- Internal nodes created by one round of the tournament loop: one node
per consecutive pair, ids counting up from the current node count
(lines 61, 64-70). -/
def round_nodes (ns : List tree_node) (ts : List Nat) : List tree_node :=
  (pairUp ts).enum.map (fun je => tree_node.mk (ns.length + je.1) je.2.1 je.2.2 false)

/-- Tournament list for the next round: the ids of the newly created
nodes in creation order, with the unpaired last element carried over when
the round size is odd (lines 68, 71-72). -/
def round_ts (ns : List tree_node) (ts : List Nat) : List Nat :=
  (List.range (pairUp ts).length).map (fun j => ns.length + j) ++
    (if ts.length % 2 = 1 then [ts.getLastD 0] else [])

/-- The while loop of build_tree (lines 56-74).  The fuel argument only
bounds the number of rounds; every round at least halves the tournament
count, so fuel equal to the initial tournament count always suffices. -/
def build_rounds (fuel : Nat) (ns : List tree_node) (ts : List Nat) :
    List tree_node × List Nat :=
  match fuel with
  | 0 => (ns, ts)
  | fuel + 1 =>
    if 1 < ts.length then build_rounds fuel (ns ++ round_nodes ns ts) (round_ts ns ts)
    else (ns, ts)

/-- min_depth_binary_tree::build_tree (lines 24-82).  allocOk models
whether the node-storage reservation of line 47 succeeds; when it fails
the C++ code catches std::bad_alloc and rethrows, at which point
_num_leaf_nodes has already been assigned (line 37) while nodes and
_initialized are untouched.  Returns the post-call state paired with the
thrown error, if any. -/
def build_tree (allocOk : Bool) (t : min_depth_binary_tree) (num_nodes : Nat) :
    min_depth_binary_tree × Option build_error :=
  if t.initialized then
    if num_nodes ≠ t.num_leaf_nodes then (t, some build_error.configConflict)
    else (t, none)
  else
    let t1 : min_depth_binary_tree := { t with num_leaf_nodes := num_nodes }
    if num_nodes = 0 then ({ t1 with initialized := true }, none)
    else if allocOk then
      let ns0 := t.nodes ++ (List.range num_nodes).map (fun i => tree_node.mk i 0 0 true)
      let r := build_rounds num_nodes ns0 (List.range num_nodes)
      ({ t1 with nodes := r.1, root_idx := r.2.headD 0, initialized := true }, none)
    else (t1, some build_error.outOfMemory)

/-- Fresh, never-built tree (all fields at their defaults). -/
def fresh_tree : min_depth_binary_tree := {}

/-- Tree obtained by one successful build from a fresh tree. -/
def built_tree (k : Nat) : min_depth_binary_tree :=
  (build_tree true fresh_tree k).1

/-- internal_node_count (line 84): total nodes minus leaves. -/
def min_depth_binary_tree.internal_node_count (t : min_depth_binary_tree) : Nat :=
  t.nodes.length - t.num_leaf_nodes

/-- leaf_node_count (line 86). -/
def min_depth_binary_tree.leaf_node_count (t : min_depth_binary_tree) : Nat :=
  t.num_leaf_nodes

/-- Wrapper state corresponding to struct offset_tree, which owns the
binary tree. -/
structure offset_tree where
  binary_tree : min_depth_binary_tree
deriving DecidableEq

/-- Error thrown by the learn stub (line 192). -/
inductive learn_error where
  | notImplemented
deriving DecidableEq

/-- learn (lines 190-193): unconditionally throws, touching no state. -/
def learn (tree : offset_tree) : offset_tree × Option learn_error :=
  (tree, some learn_error.notImplemented)

/-- std::vector resize with value initialization: keep the first n
entries, pad with zeroes if the vector grows (line 130). -/
def resize_scores (l : List ℚ) (n : Nat) : List ℚ :=
  l.take n ++ List.replicate (n - l.length) 0

/-- Mutable state of the score-propagation loop: the per-internal-node
prediction buffer (indexed by node id minus leaf count, exactly the
remapping offset_helper performs on lines 93-114 and 149) and the output
scores vector. -/
structure predict_state where
  buffer : List (ℚ × ℚ)
  scores : List ℚ
deriving DecidableEq

/-- Body of the score-propagation loop for one internal node
(lines 152-185): read the node's stored pair; for each child, either
write the final score (leaf child) or scale the child's stored pair in
place (internal child).  The right mass is read only after the left
child's update, as in the source. -/
def prop_step (t : min_depth_binary_tree) (st : predict_state) (n : tree_node) :
    predict_state :=
  let k := t.leaf_node_count
  let left_p := (st.buffer.getD (n.id - k) (0, 0)).1
  let st1 :=
    if (t.nodes.getD n.left_id default).is_leaf then
      { st with scores := st.scores.set n.left_id left_p }
    else
      let c := st.buffer.getD (n.left_id - k) (0, 0)
      { st with buffer := st.buffer.set (n.left_id - k) (c.1 * left_p, c.2 * left_p) }
  let right_p := (st1.buffer.getD (n.id - k) (0, 0)).2
  if (t.nodes.getD n.right_id default).is_leaf then
    { st1 with scores := st1.scores.set n.right_id right_p }
  else
    let c := st1.buffer.getD (n.right_id - k) (0, 0)
    { st1 with buffer := st1.buffer.set (n.right_id - k) (c.1 * right_p, c.2 * right_p) }

/-- offset_tree::predict (lines 116-188).  scorer models the base
learner call of lines 144-145; stale models whatever the thread_local
scores buffer held before the call (it is resized on line 130 but never
cleared).  The node scan runs over the reversed node list and stops at
the first leaf (lines 152-156). -/
def predict (t : min_depth_binary_tree) (scorer : Nat → ℚ × ℚ) (stale : List ℚ) :
    List ℚ :=
  let scores0 := resize_scores stale t.leaf_node_count
  if t.leaf_node_count = 0 then scores0
  else if t.leaf_node_count = 1 then scores0.set 0 1
  else
    let buf := (List.range t.internal_node_count).map scorer
    let toProcess := t.nodes.reverse.takeWhile (fun n => !n.is_leaf)
    (toProcess.foldl (prop_step t) ⟨buf, scores0⟩).scores

/-- Indices passed to the base learner by one predict call: none on the
degenerate early returns (lines 133-139), otherwise the loop indices
0 .. internal_node_count - 1 in ascending order (lines 142-146); the
node scored at index idx is the one with id = idx + leaf_node_count
(offset_helper, line 149). -/
def predict_base_calls (t : min_depth_binary_tree) : List Nat :=
  if t.leaf_node_count = 0 then []
  else if t.leaf_node_count = 1 then []
  else List.range t.internal_node_count

/-- Elements of a tournament round that get paired: everything, except a
trailing unpaired element when the round size is odd. -/
def paired_elems (l : List Nat) : List Nat :=
  if l.length % 2 = 0 then l else l.dropLast

/-! Parents inside the flat node list. -/

/-- Boolean test that node n is an internal node having j as a child. -/
def is_parent_of (n : tree_node) (j : Nat) : Bool :=
  !n.is_leaf && (n.left_id == j || n.right_id == j)

/-- Number of internal nodes of the list having j as a child. -/
def parent_count (ns : List tree_node) (j : Nat) : Nat :=
  ns.countP (fun n => is_parent_of n j)

/-- The internal node of the list having j as a child, if any (unique in a
well-formed tree). -/
def parent_of (ns : List tree_node) (j : Nat) : Option tree_node :=
  ns.find? (fun n => is_parent_of n j)

/-- Invariant carried through the tournament loop: dense ids, leaves
exactly below k, internal children strictly below their parent and
distinct, every node either a current tournament entrant (no parent yet)
or the child of exactly one internal node, and the tournament list a
nonempty duplicate-free set of valid ids whose only possible singleton is
the most recently created node. -/
structure tree_inv (k : Nat) (ns : List tree_node) (ts : List Nat) : Prop where
  k_le : k ≤ ns.length
  dense : ∀ i, i < ns.length → (ns.getD i default).id = i
  leaf_iff : ∀ i, i < ns.length → ((ns.getD i default).is_leaf = true ↔ i < k)
  children : ∀ i, i < ns.length → (ns.getD i default).is_leaf = false →
    (ns.getD i default).left_id < i ∧ (ns.getD i default).right_id < i ∧
      (ns.getD i default).left_id ≠ (ns.getD i default).right_id
  pcount : ∀ j, j < ns.length → parent_count ns j = if j ∈ ts then 0 else 1
  ts_nodup : ts.Nodup
  ts_lt : ∀ x ∈ ts, x < ns.length
  ts_ne : ts ≠ []
  ts_single : ts.length = 1 → ts = [ns.length - 1]

/-- Leaf nodes the builder starts from (lines 51-55). -/
def leaf_nodes0 (k : Nat) : List tree_node :=
  (List.range k).map (fun i => tree_node.mk i 0 0 true)

/-- Probability mass reaching node j from the root: the product of
scorer-supplied branch probabilities along the chain of ancestors of j,
taking the left component when the step descends to the left child and
the right component otherwise.  Fuel-indexed; since every parent id is
larger than its child id, fuel equal to the node count suffices. -/
def mass_above (t : min_depth_binary_tree) (scorer : Nat → ℚ × ℚ) : Nat → Nat → ℚ
  | 0, _ => 1
  | fuel + 1, j =>
    match parent_of t.nodes j with
    | none => 1
    | some p =>
      mass_above t scorer fuel p.id *
        (if j = p.left_id then (scorer (p.id - t.leaf_node_count)).1
         else (scorer (p.id - t.leaf_node_count)).2)

/-- Root-relative probability mass of node j. -/
def node_mass (t : min_depth_binary_tree) (scorer : Nat → ℚ × ℚ) (j : Nat) : ℚ :=
  mass_above t scorer t.nodes.length j

/-- Ids of the strict ancestors of j, nearest parent first. -/
def path_above (ns : List tree_node) : Nat → Nat → List Nat
  | 0, _ => []
  | fuel + 1, j =>
    match parent_of ns j with
    | none => []
    | some p => p.id :: path_above ns fuel p.id

/-- Root-to-node path: the ancestors of i from the root down, ending at
i itself. -/
def root_path (t : min_depth_binary_tree) (i : Nat) : List Nat :=
  (i :: path_above t.nodes t.nodes.length i).reverse

/-- Probability the scorer assigns to the branch from internal node p to
its child c: the left component of the pair when c is p's left child,
the right component otherwise. -/
def branch_prob (t : min_depth_binary_tree) (scorer : Nat → ℚ × ℚ) (p c : Nat) : ℚ :=
  if c = (t.nodes.getD p default).left_id then (scorer (p - t.leaf_node_count)).1
  else (scorer (p - t.leaf_node_count)).2

/-- Product of the branch probabilities along a path of node ids. -/
def path_prod (t : min_depth_binary_tree) (scorer : Nat → ℚ × ℚ) : List Nat → ℚ
  | a :: b :: rest => branch_prob t scorer a b * path_prod t scorer (b :: rest)
  | _ => 1

/-- One parent-to-child step of the tree. -/
def child_step (t : min_depth_binary_tree) (a b : Nat) : Prop :=
  (t.nodes.getD a default).is_leaf = false ∧
    (b = (t.nodes.getD a default).left_id ∨ b = (t.nodes.getD a default).right_id)

/-- The list q is a root-to-i path: it starts at the root, each
consecutive pair descends from a node to one of its children, and it
ends at i. -/
def is_root_leaf_path (t : min_depth_binary_tree) (q : List Nat) (i : Nat) : Prop :=
  q.head? = some t.root_idx ∧ q.getLast? = some i ∧ List.Chain' (child_step t) q

/-- Height (edge count of the longest downward path) of the subtree
rooted at node j.  Fuel-indexed structural recursion. -/
def height_in (ns : List tree_node) : Nat → Nat → Nat
  | 0, _ => 0
  | fuel + 1, j =>
    if (ns.getD j default).is_leaf then 0
    else 1 + max (height_in ns fuel (ns.getD j default).left_id)
        (height_in ns fuel (ns.getD j default).right_id)

/-- Maximum root-to-leaf edge count of the tree. -/
def tree_depth (t : min_depth_binary_tree) : Nat :=
  height_in t.nodes t.nodes.length t.root_idx

/-- Number of edges on the root-to-leaf path of leaf i. -/
def leaf_depth (t : min_depth_binary_tree) (i : Nat) : Nat :=
  (root_path t i).length - 1

/-- State of the score-propagation scan of predict after all internal
nodes with id at least m have been processed (the scan visits ids in
descending order, so this is the scan's state just before processing
node m - 1). -/
def fold_from (t : min_depth_binary_tree) (scorer : Nat → ℚ × ℚ) (stale : List ℚ)
    (m : Nat) : predict_state :=
  ((t.nodes.drop m).reverse).foldl (prop_step t)
    ⟨(List.range t.internal_node_count).map scorer,
      resize_scores stale t.leaf_node_count⟩

/-- Multiplier accumulated on the stored pair of internal node j by the
time the scan is about to process node m - 1: the node's root-relative
mass once its parent has been processed, and 1 before that (the root
never gains a multiplier, and its mass is 1). -/
def fold_coeff (k : Nat) (scorer : Nat → ℚ × ℚ) (m j : Nat) : ℚ :=
  match parent_of (built_tree k).nodes j with
  | none => 1
  | some p => if m ≤ p.id then node_mass (built_tree k) scorer j else 1

/-- Invariant of the score-propagation scan: before node m - 1 is
processed, a leaf's score slot holds its root-relative mass if its
parent is already processed and the stale prediction otherwise, and an
internal node's buffer slot holds its scorer pair times the accumulated
multiplier. -/
def fold_inv (k : Nat) (scorer : Nat → ℚ × ℚ) (stale : List ℚ) (m : Nat) : Prop :=
  (fold_from (built_tree k) scorer stale m).scores.length = k ∧
    (fold_from (built_tree k) scorer stale m).buffer.length = k - 1 ∧
    (∀ i, i < k →
      (fold_from (built_tree k) scorer stale m).scores.getD i 0 =
        match parent_of (built_tree k).nodes i with
        | none => (resize_scores stale k).getD i 0
        | some p =>
          if m ≤ p.id then node_mass (built_tree k) scorer i
          else (resize_scores stale k).getD i 0) ∧
    (∀ j, k ≤ j → j < 2 * k - 1 →
      (fold_from (built_tree k) scorer stale m).buffer.getD (j - k) (0, 0) =
        (fold_coeff k scorer m j * (scorer (j - k)).1,
          fold_coeff k scorer m j * (scorer (j - k)).2))

/-- Branch probability of the final step appended to a path: the branch
from the path's last node. -/
def last_branch (t : min_depth_binary_tree) (scorer : Nat → ℚ × ℚ) :
    List Nat → Nat → ℚ
  | [], _ => 1
  | [a], b => branch_prob t scorer a b
  | _ :: c :: l, b => last_branch t scorer (c :: l) b

/-- Test that node j is on the scan frontier just before node m - 1 is
processed: j is not yet processed and its parent (if any) already is. -/
def on_frontier (k m j : Nat) : Bool :=
  decide (j < m) &&
    (match parent_of (built_tree k).nodes j with
     | none => true
     | some p => decide (m ≤ p.id))

/-- Total root-relative mass of the scan frontier. -/
def frontier_sum (k : Nat) (scorer : Nat → ℚ × ℚ) (m : Nat) : ℚ :=
  ∑ j ∈ Finset.range (2 * k - 1),
    (if on_frontier k m j then node_mass (built_tree k) scorer j else 0)

/-! Auxiliary facts about lists used throughout the development. -/

theorem listGetD_append_left {α : Type} {l l' : List α} {i : Nat} (d : α)
    (h : i < l.length) : (l ++ l').getD i d = l.getD i d := by
  induction l generalizing i with
  | nil => simp at h
  | cons a t ih =>
    cases i with
    | zero => rfl
    | succ i => simpa using ih (by simpa using h)

theorem listGetD_append_right {α : Type} {l l' : List α} {i : Nat} (d : α)
    (h : l.length ≤ i) : (l ++ l').getD i d = l'.getD (i - l.length) d := by
  induction l generalizing i with
  | nil => simp
  | cons a t ih =>
    cases i with
    | zero => simp at h
    | succ i => simpa using ih (by simpa using h)

theorem listGetD_out {α : Type} {l : List α} {i : Nat} (d : α)
    (h : l.length ≤ i) : l.getD i d = d := by
  induction l generalizing i with
  | nil => simp
  | cons a t ih =>
    cases i with
    | zero => simp at h
    | succ i => simpa using ih (by simpa using h)

theorem listGetD_set_self {α : Type} {l : List α} {i : Nat} (a d : α)
    (h : i < l.length) : (l.set i a).getD i d = a := by
  induction l generalizing i with
  | nil => simp at h
  | cons b t ih =>
    cases i with
    | zero => rfl
    | succ i => simpa using ih (by simpa using h)

theorem listGetD_set_ne {α : Type} {l : List α} {i j : Nat} (a d : α)
    (h : i ≠ j) : (l.set i a).getD j d = l.getD j d := by
  induction l generalizing i j with
  | nil => simp
  | cons b t ih =>
    cases i with
    | zero =>
      cases j with
      | zero => exact absurd rfl h
      | succ j => rfl
    | succ i =>
      cases j with
      | zero => rfl
      | succ j => simpa using ih (i := i) (j := j) (by omega)

theorem listGetD_map_range {α : Type} (f : Nat → α) {n i : Nat} (d : α)
    (h : i < n) : ((List.range n).map f).getD i d = f i := by
  induction n with
  | zero => omega
  | succ n ih =>
    rcases Nat.lt_succ_iff_lt_or_eq.1 h with h' | h'
    · rw [List.range_succ, List.map_append, listGetD_append_left d (by simpa using h')]
      exact ih h'
    · subst h'
      rw [List.range_succ, List.map_append,
        listGetD_append_right d (by simp), List.length_map, List.length_range]
      simp

theorem takeWhile_append_all {α : Type} (p : α → Bool) (l l' : List α)
    (h : ∀ x ∈ l, p x = true) :
    (l ++ l').takeWhile p = l ++ l'.takeWhile p := by
  induction l with
  | nil => simp
  | cons a t ih =>
    have ha : p a = true := h a (by simp)
    have ih' := ih (fun x hx => h x (by simp [hx]))
    simp [List.takeWhile_cons, ha, ih']

theorem getLastD_mem {l : List Nat} (d : Nat) (h : l ≠ []) : l.getLastD d ∈ l := by
  induction l with
  | nil => exact absurd rfl h
  | cons a t ih =>
    cases t with
    | nil => simp
    | cons b u => simpa using Or.inr (ih (by simp))

theorem get?_enumFrom {α : Type} (n : Nat) (l : List α) (i : Nat) :
    (List.enumFrom n l).get? i = (l.get? i).map (fun a => (n + i, a)) := by
  induction l generalizing n i with
  | nil => simp
  | cons a t ih =>
    cases i with
    | zero => simp
    | succ i =>
      simp only [List.enumFrom, List.get?]
      rw [ih]
      have hn : n + 1 + i = n + (i + 1) := by omega
      rw [hn]

theorem countP_enumFrom {α : Type} (q : α → Bool) (n : Nat) (l : List α) :
    (List.enumFrom n l).countP (fun pa => q pa.2) = l.countP q := by
  induction l generalizing n with
  | nil => rfl
  | cons a t ih =>
    simp only [List.enumFrom, List.countP_cons, ih]

theorem resize_scores_length (l : List ℚ) (n : Nat) : (resize_scores l n).length = n := by
  simp only [resize_scores, List.length_append, List.length_take, List.length_replicate]
  omega

/-! Structural facts about the pairing of one tournament round. -/

theorem pairUp_length : ∀ l : List Nat, (pairUp l).length = l.length / 2
  | [] => by norm_num [pairUp]
  | [_] => by norm_num [pairUp]
  | a :: b :: rest => by
    simp only [pairUp, List.length_cons, pairUp_length rest]
    omega

theorem pairUp_mem : ∀ {l : List Nat} {p : Nat × Nat}, p ∈ pairUp l → p.1 ∈ l ∧ p.2 ∈ l
  | [], p, h => by simp [pairUp] at h
  | [_], p, h => by simp [pairUp] at h
  | a :: b :: rest, p, h => by
    simp only [pairUp, List.mem_cons] at h
    rcases h with h | h
    · subst h; simp
    · have hm := pairUp_mem h
      exact ⟨by simp [hm.1], by simp [hm.2]⟩

theorem paired_cons2 (a b : Nat) (rest : List Nat) :
    paired_elems (a :: b :: rest) = a :: b :: paired_elems rest := by
  simp only [paired_elems, List.length_cons]
  have h2 : (rest.length + 1 + 1) % 2 = rest.length % 2 := by omega
  simp only [h2]
  by_cases hp : rest.length % 2 = 0
  · simp [hp]
  · have hp1 : ¬rest.length % 2 = 0 := hp
    simp only [hp1, if_false]
    cases rest with
    | nil => simp at hp1
    | cons c u => simp

theorem dropLast_append_getLastD :
    ∀ {l : List Nat} (d : Nat), l ≠ [] → l.dropLast ++ [l.getLastD d] = l
  | [a], d, _ => by simp
  | a :: b :: rest, d, _ => by
    have ih := dropLast_append_getLastD (l := b :: rest) a (by simp)
    have h1 : (a :: b :: rest).dropLast = a :: (b :: rest).dropLast := rfl
    have h2 : (a :: b :: rest).getLastD d = (b :: rest).getLastD a := rfl
    rw [h1, h2, List.cons_append, ih]

theorem dropLast_mem {l : List Nat} {x : Nat} (hx : x ∈ l.dropLast) : x ∈ l := by
  cases l with
  | nil => simp at hx
  | cons a t =>
    rw [← dropLast_append_getLastD 0 (l := a :: t) (by simp)]
    exact List.mem_append_left _ hx

theorem last_not_mem_dropLast {l : List Nat} (d : Nat) (h : l ≠ []) (hnd : l.Nodup) :
    l.getLastD d ∉ l.dropLast := by
  have hdecomp := dropLast_append_getLastD d h
  rw [← hdecomp] at hnd
  rcases List.nodup_append.1 hnd with ⟨-, -, hdisj⟩
  intro hmem
  exact hdisj hmem (by simp)

theorem mem_dropLast_or_last {l : List Nat} (d : Nat) (h : l ≠ []) {x : Nat}
    (hx : x ∈ l) : x ∈ l.dropLast ∨ x = l.getLastD d := by
  rw [← dropLast_append_getLastD d h] at hx
  rcases List.mem_append.1 hx with hx | hx
  · exact Or.inl hx
  · exact Or.inr (by simpa using hx)

theorem paired_sub {l : List Nat} {x : Nat} (hx : x ∈ paired_elems l) : x ∈ l := by
  by_cases hp : l.length % 2 = 0
  · simpa [paired_elems, hp] using hx
  · exact dropLast_mem (by simpa [paired_elems, hp] using hx)

theorem pairUp_ne : ∀ {l : List Nat}, l.Nodup → ∀ {p : Nat × Nat}, p ∈ pairUp l →
    p.1 ≠ p.2
  | [], _, p, h => by simp [pairUp] at h
  | [_], _, p, h => by simp [pairUp] at h
  | a :: b :: rest, hnd, p, h => by
    rcases List.nodup_cons.1 hnd with ⟨ha, hnd1⟩
    rcases List.nodup_cons.1 hnd1 with ⟨hb, hnd2⟩
    simp only [pairUp, List.mem_cons] at h
    rcases h with h | h
    · subst h
      have hab : a ≠ b := fun hab => ha (by simp [hab])
      simpa using hab
    · exact pairUp_ne hnd2 h

theorem pairUp_countP (j : Nat) : ∀ {l : List Nat}, l.Nodup →
    (pairUp l).countP (fun p => p.1 == j || p.2 == j) =
      if j ∈ paired_elems l then 1 else 0
  | [], _ => by simp [pairUp, paired_elems]
  | [a], _ => by simp [pairUp, paired_elems]
  | a :: b :: rest, hnd => by
    rcases List.nodup_cons.1 hnd with ⟨ha, hnd1⟩
    rcases List.nodup_cons.1 hnd1 with ⟨hb, hnd2⟩
    rw [paired_cons2]
    simp only [pairUp, List.countP_cons, pairUp_countP j hnd2]
    by_cases hja : j = a
    · subst hja
      have hnp : j ∉ paired_elems rest := fun hm => ha (by simp [paired_sub hm])
      simp [hnp]
    · by_cases hjb : j = b
      · subst hjb
        have hnp : j ∉ paired_elems rest := fun hm => hb (paired_sub hm)
        simp [hnp, hja]
      · have hne1 : (a == j) = false := by simp [Ne.symm hja]
        have hne2 : (b == j) = false := by simp [Ne.symm hjb]
        simp [hne1, hne2, List.mem_cons, hja, hjb]

theorem listGetD_eq_get {α : Type} (l : List α) (d : α) {i : Nat} (h : i < l.length) :
    l.getD i d = l.get ⟨i, h⟩ := by
  induction l generalizing i with
  | nil => simp at h
  | cons a t ih =>
    cases i with
    | zero => rfl
    | succ i => simpa using ih (by simpa using h)

theorem listGetD_mem {α : Type} {l : List α} (d : α) {i : Nat} (h : i < l.length) :
    l.getD i d ∈ l := by
  rw [listGetD_eq_get l d h]
  exact l.get_mem _ _

theorem mem_listGetD {α : Type} {l : List α} {n : α} (d : α) (hn : n ∈ l) :
    ∃ i, i < l.length ∧ l.getD i d = n := by
  rcases List.mem_iff_get.1 hn with ⟨⟨i, hi⟩, rfl⟩
  exact ⟨i, hi, listGetD_eq_get l d hi⟩

theorem find?_of_countP_one {α : Type} (p : α → Bool) :
    ∀ l : List α, l.countP p = 1 →
      ∃ a, l.find? p = some a ∧ p a = true ∧ ∀ b ∈ l, p b = true → b = a := by
  intro l
  induction l with
  | nil => intro h; simp [List.countP_nil] at h
  | cons a t ih =>
    intro h
    rw [List.countP_cons] at h
    by_cases hpa : p a = true
    · have ht : t.countP p = 0 := by rw [if_pos hpa] at h; omega
      have hnone : ∀ b ∈ t, ¬p b = true := List.countP_eq_zero.1 ht
      refine ⟨a, by rw [List.find?_cons_of_pos _ hpa], hpa, ?_⟩
      intro b hb hpb
      rcases List.mem_cons.1 hb with rfl | hb
      · rfl
      · exact absurd hpb (hnone b hb)
    · have hpa' : p a = false := by simpa using hpa
      have ht : t.countP p = 1 := by rw [if_neg hpa] at h; omega
      rcases ih ht with ⟨c, hfind, hpc, huniq⟩
      refine ⟨c, ?_, hpc, ?_⟩
      · rw [List.find?_cons_of_neg _ (by simp [hpa']), hfind]
      · intro b hb hpb
        rcases List.mem_cons.1 hb with rfl | hb
        · exact absurd hpb (by simp [hpa'])
        · exact huniq b hb hpb

theorem find?_of_countP_zero {α : Type} (p : α → Bool) (l : List α)
    (h : l.countP p = 0) : l.find? p = none :=
  List.find?_eq_none.2 fun x hx => by
    have := List.countP_eq_zero.1 h x hx
    simpa using this

theorem listGetD_get? {α : Type} (l : List α) (d : α) (i : Nat) :
    l.getD i d = (l.get? i).getD d := by
  induction l generalizing i with
  | nil => cases i <;> rfl
  | cons a t ih =>
    cases i with
    | zero => rfl
    | succ i => simpa using ih i

theorem round_nodes_length (ns : List tree_node) (ts : List Nat) :
    (round_nodes ns ts).length = (pairUp ts).length := by
  simp [round_nodes]

theorem round_nodes_getD (ns : List tree_node) (ts : List Nat) {j : Nat}
    (h : j < (pairUp ts).length) :
    (round_nodes ns ts).getD j default =
      tree_node.mk (ns.length + j) ((pairUp ts).getD j (0, 0)).1
        ((pairUp ts).getD j (0, 0)).2 false := by
  rw [listGetD_get?, round_nodes, List.get?_map, List.enum, get?_enumFrom,
    List.get?_eq_get h, listGetD_eq_get _ _ h]
  simp

theorem parent_count_round_nodes (ns : List tree_node) (ts : List Nat) (j : Nat) :
    parent_count (round_nodes ns ts) j =
      (pairUp ts).countP (fun p => p.1 == j || p.2 == j) := by
  rw [parent_count, round_nodes, List.countP_map, List.enum]
  have hcongr : ∀ pa ∈ (pairUp ts).enumFrom 0,
      (((fun n => is_parent_of n j) ∘
        (fun je => tree_node.mk (ns.length + je.1) je.2.1 je.2.2 false)) pa = true ↔
        (fun p : Nat × Nat => p.1 == j || p.2 == j) pa.2 = true) := by
    intro pa _
    simp [is_parent_of]
  rw [List.countP_congr hcongr]
  exact countP_enumFrom (fun p => p.1 == j || p.2 == j) 0 (pairUp ts)

theorem round_ts_length (ns : List tree_node) (ts : List Nat) :
    (round_ts ns ts).length =
      (pairUp ts).length + (if ts.length % 2 = 1 then 1 else 0) := by
  simp only [round_ts, List.length_append, List.length_map, List.length_range]
  congr 1
  by_cases hp : ts.length % 2 = 1 <;> simp [hp]

theorem mem_round_ts {ns : List tree_node} {ts : List Nat} {x : Nat} :
    x ∈ round_ts ns ts ↔
      (∃ j, j < (pairUp ts).length ∧ x = ns.length + j) ∨
        (ts.length % 2 = 1 ∧ x = ts.getLastD 0) := by
  simp only [round_ts, List.mem_append, List.mem_map, List.mem_range]
  constructor
  · rintro (⟨j, hj, rfl⟩ | hx)
    · exact Or.inl ⟨j, hj, rfl⟩
    · by_cases hp : ts.length % 2 = 1
      · rw [if_pos hp] at hx
        exact Or.inr ⟨hp, by simpa using hx⟩
      · rw [if_neg hp] at hx
        simp at hx
  · rintro (⟨j, hj, rfl⟩ | ⟨hp, rfl⟩)
    · exact Or.inl ⟨j, hj, rfl⟩
    · right
      rw [if_pos hp]
      simp

theorem tree_inv_parent_lt {k : Nat} {ns : List tree_node} {ts : List Nat}
    (h : tree_inv k ns ts) {n : tree_node} (hn : n ∈ ns) {j : Nat}
    (hp : is_parent_of n j = true) : j < n.id ∧ n.id < ns.length := by
  rcases mem_listGetD default hn with ⟨i, hi, hgd⟩
  have hid : n.id = i := by rw [← hgd]; exact h.dense i hi
  simp only [is_parent_of, Bool.and_eq_true, Bool.not_eq_true', Bool.or_eq_true,
    beq_iff_eq] at hp
  have hch := h.children i hi (by rw [hgd]; exact hp.1)
  rw [hgd] at hch
  rcases hp.2 with hj | hj
  · exact ⟨by omega, by omega⟩
  · exact ⟨by omega, by omega⟩

theorem parent_count_out {k : Nat} {ns : List tree_node} {ts : List Nat}
    (h : tree_inv k ns ts) {j : Nat} (hj : ns.length ≤ j) : parent_count ns j = 0 :=
  List.countP_eq_zero.2 fun n hn hp => by
    have := tree_inv_parent_lt h hn hp
    omega

theorem tree_inv_step {k : Nat} {ns : List tree_node} {ts : List Nat}
    (h : tree_inv k ns ts) (hlen : 1 < ts.length) :
    tree_inv k (ns ++ round_nodes ns ts) (round_ts ns ts) := by
  have hP1 : 1 ≤ (pairUp ts).length := by rw [pairUp_length]; omega
  have hlength : (ns ++ round_nodes ns ts).length = ns.length + (pairUp ts).length := by
    simp [List.length_append, round_nodes_length]
  have hB : ∀ i, i < ns.length →
      (ns ++ round_nodes ns ts).getD i default = ns.getD i default :=
    fun i hi => listGetD_append_left default hi
  have hA : ∀ j, j < (pairUp ts).length →
      (ns ++ round_nodes ns ts).getD (ns.length + j) default =
        tree_node.mk (ns.length + j) ((pairUp ts).getD j (0, 0)).1
          ((pairUp ts).getD j (0, 0)).2 false := by
    intro j hj
    rw [listGetD_append_right default (by omega)]
    have he : ns.length + j - ns.length = j := by omega
    rw [he, round_nodes_getD ns ts hj]
  refine { k_le := ?_, dense := ?_, leaf_iff := ?_, children := ?_, pcount := ?_,
           ts_nodup := ?_, ts_lt := ?_, ts_ne := ?_, ts_single := ?_ }
  · have := h.k_le
    rw [hlength]
    omega
  · intro i hi
    rw [hlength] at hi
    by_cases hi' : i < ns.length
    · rw [hB i hi']
      exact h.dense i hi'
    · have hj : i - ns.length < (pairUp ts).length := by omega
      have hi2 : i = ns.length + (i - ns.length) := by omega
      rw [hi2, hA _ hj]
  · intro i hi
    rw [hlength] at hi
    by_cases hi' : i < ns.length
    · rw [hB i hi']
      exact h.leaf_iff i hi'
    · have hj : i - ns.length < (pairUp ts).length := by omega
      have hi2 : i = ns.length + (i - ns.length) := by omega
      have hk := h.k_le
      rw [hi2, hA _ hj]
      simp only [tree_node.mk.injEq]
      constructor
      · intro hfalse
        exact absurd hfalse (by simp)
      · intro hlt
        omega
  · intro i hi hleaf
    rw [hlength] at hi
    by_cases hi' : i < ns.length
    · rw [hB i hi'] at hleaf ⊢
      exact h.children i hi' hleaf
    · have hj : i - ns.length < (pairUp ts).length := by omega
      have hi2 : i = ns.length + (i - ns.length) := by omega
      rw [hi2, hA _ hj]
      have hpm : (pairUp ts).getD (i - ns.length) (0, 0) ∈ pairUp ts :=
        listGetD_mem (0, 0) hj
      have hmem := pairUp_mem hpm
      have hlt1 := h.ts_lt _ hmem.1
      have hlt2 := h.ts_lt _ hmem.2
      refine ⟨?_, ?_, ?_⟩
      · show ((pairUp ts).getD (i - ns.length) (0, 0)).1 < ns.length + (i - ns.length)
        omega
      · show ((pairUp ts).getD (i - ns.length) (0, 0)).2 < ns.length + (i - ns.length)
        omega
      · show ((pairUp ts).getD (i - ns.length) (0, 0)).1 ≠
          ((pairUp ts).getD (i - ns.length) (0, 0)).2
        exact pairUp_ne h.ts_nodup hpm
  · intro j hj
    rw [hlength] at hj
    have hsplit : parent_count (ns ++ round_nodes ns ts) j =
        parent_count ns j + (pairUp ts).countP (fun p => p.1 == j || p.2 == j) := by
      rw [parent_count, List.countP_append, ← parent_count_round_nodes ns ts j]
      rfl
    rw [hsplit, pairUp_countP j h.ts_nodup]
    by_cases hjlen : j < ns.length
    · rw [h.pcount j hjlen]
      by_cases hjts : j ∈ ts
      · rw [if_pos hjts]
        by_cases hjp : j ∈ paired_elems ts
        · rw [if_pos hjp]
          have hnot : j ∉ round_ts ns ts := by
            rw [mem_round_ts]
            rintro (⟨j', hj', rfl⟩ | ⟨hodd, rfl⟩)
            · omega
            · have hnmem : ts.getLastD 0 ∉ ts.dropLast :=
                last_not_mem_dropLast 0 h.ts_ne h.ts_nodup
              have hpd : paired_elems ts = ts.dropLast := by
                rw [paired_elems, if_neg (by omega)]
              exact hnmem (hpd ▸ hjp)
          rw [if_neg hnot]
        · rw [if_neg hjp]
          have hodd : ts.length % 2 = 1 := by
            by_contra hev
            have hpd : paired_elems ts = ts := by
              rw [paired_elems, if_pos (by omega)]
            exact hjp (by rw [hpd]; exact hjts)
          have hpd : paired_elems ts = ts.dropLast := by
            rw [paired_elems, if_neg (by omega)]
          rcases mem_dropLast_or_last 0 h.ts_ne hjts with hj2 | hj2
          · exact absurd (by rw [hpd]; exact hj2) hjp
          · have hmem : j ∈ round_ts ns ts := mem_round_ts.2 (Or.inr ⟨hodd, hj2⟩)
            rw [if_pos hmem]
      · rw [if_neg hjts]
        have hjp : j ∉ paired_elems ts := fun hm => hjts (paired_sub hm)
        rw [if_neg hjp]
        have hnot : j ∉ round_ts ns ts := by
          rw [mem_round_ts]
          rintro (⟨j', hj', rfl⟩ | ⟨hodd, rfl⟩)
          · omega
          · exact hjts (getLastD_mem 0 h.ts_ne)
        rw [if_neg hnot]
    · have h0 : parent_count ns j = 0 := parent_count_out h (by omega)
      have hjp : j ∉ paired_elems ts := fun hm => by
        have := h.ts_lt j (paired_sub hm)
        omega
      rw [h0, if_neg hjp]
      have hmem : j ∈ round_ts ns ts :=
        mem_round_ts.2 (Or.inl ⟨j - ns.length, by omega, by omega⟩)
      rw [if_pos hmem]
  · apply List.Nodup.append
    · exact (List.nodup_range _).map (fun a b hab => by omega)
    · by_cases hp : ts.length % 2 = 1 <;> simp [hp]
    · intro x hxA hxB
      rcases List.mem_map.1 hxA with ⟨j', hj', rfl⟩
      by_cases hp : ts.length % 2 = 1
      · rw [if_pos hp] at hxB
        have hc : ts.getLastD 0 ∈ ts := getLastD_mem 0 h.ts_ne
        have := h.ts_lt _ hc
        have hx : ns.length + j' = ts.getLastD 0 := by simpa using hxB
        omega
      · rw [if_neg hp] at hxB
        simp at hxB
  · intro x hx
    rw [hlength]
    rcases mem_round_ts.1 hx with ⟨j, hj, rfl⟩ | ⟨-, rfl⟩
    · omega
    · have := h.ts_lt _ (getLastD_mem 0 h.ts_ne)
      omega
  · intro hemp
    have hlen0 : (round_ts ns ts).length = 0 := by rw [hemp]; rfl
    rw [round_ts_length] at hlen0
    by_cases hp : ts.length % 2 = 1
    · rw [if_pos hp] at hlen0
      omega
    · rw [if_neg hp] at hlen0
      omega
  · intro hone
    rw [round_ts_length] at hone
    by_cases hodd : ts.length % 2 = 1
    · rw [if_pos hodd] at hone
      have hcontra : (pairUp ts).length = 0 := by omega
      omega
    · rw [if_neg hodd] at hone
      have hP : (pairUp ts).length = 1 := by omega
      rw [round_ts, hP, if_neg hodd, hlength, hP]
      have hr : List.range 1 = [0] := by decide
      rw [hr]
      simp

theorem build_rounds_succ (fuel : Nat) (ns : List tree_node) (ts : List Nat) :
    build_rounds (fuel + 1) ns ts =
      if 1 < ts.length then
        build_rounds fuel (ns ++ round_nodes ns ts) (round_ts ns ts)
      else (ns, ts) := rfl

theorem build_rounds_inv (k : Nat) : ∀ (fuel : Nat) (ns : List tree_node)
    (ts : List Nat), ts.length ≤ fuel → tree_inv k ns ts →
    tree_inv k (build_rounds fuel ns ts).1 (build_rounds fuel ns ts).2 ∧
      (build_rounds fuel ns ts).2.length = 1 ∧
      (build_rounds fuel ns ts).1.length = ns.length + (ts.length - 1) ∧
      ∀ i, i < ns.length →
        (build_rounds fuel ns ts).1.getD i default = ns.getD i default := by
  intro fuel
  induction fuel with
  | zero =>
    intro ns ts hf hinv
    have hemp : ts = [] := List.length_eq_zero.1 (by omega)
    exact absurd hemp hinv.ts_ne
  | succ fuel ih =>
    intro ns ts hf hinv
    by_cases hl : 1 < ts.length
    · rw [build_rounds_succ, if_pos hl]
      have hstep := tree_inv_step hinv hl
      have hrlen : (round_ts ns ts).length =
          ts.length / 2 + (if ts.length % 2 = 1 then 1 else 0) := by
        rw [round_ts_length, pairUp_length]
      have hf' : (round_ts ns ts).length ≤ fuel := by
        rw [hrlen]
        by_cases hp : ts.length % 2 = 1
        · rw [if_pos hp]; omega
        · rw [if_neg hp]; omega
      obtain ⟨h1, h2, h3, h4⟩ := ih _ _ hf' hstep
      refine ⟨h1, h2, ?_, ?_⟩
      · rw [h3, List.length_append, round_nodes_length, pairUp_length, hrlen]
        by_cases hp : ts.length % 2 = 1
        · rw [if_pos hp]; omega
        · rw [if_neg hp]; omega
      · intro i hi
        rw [h4 i (by rw [List.length_append]; omega)]
        exact listGetD_append_left default hi
    · rw [build_rounds_succ, if_neg hl]
      have h0 : ts.length ≠ 0 := fun h0 => hinv.ts_ne (List.length_eq_zero.1 h0)
      refine ⟨hinv, ?_, ?_, fun i hi => rfl⟩
      · show ts.length = 1
        omega
      · show ns.length = ns.length + (ts.length - 1)
        omega

theorem leaf_nodes0_length (k : Nat) : (leaf_nodes0 k).length = k := by
  simp [leaf_nodes0]

theorem leaf_nodes0_getD (k : Nat) {i : Nat} (h : i < k) :
    (leaf_nodes0 k).getD i default = tree_node.mk i 0 0 true := by
  rw [leaf_nodes0, listGetD_map_range _ default h]

theorem tree_inv_init (k : Nat) (hk : 1 ≤ k) :
    tree_inv k (leaf_nodes0 k) (List.range k) := by
  refine { k_le := ?_, dense := ?_, leaf_iff := ?_, children := ?_, pcount := ?_,
           ts_nodup := List.nodup_range _, ts_lt := ?_, ts_ne := ?_, ts_single := ?_ }
  · rw [leaf_nodes0_length]
  · intro i hi
    rw [leaf_nodes0_length] at hi
    rw [leaf_nodes0_getD k hi]
  · intro i hi
    rw [leaf_nodes0_length] at hi
    rw [leaf_nodes0_getD k hi]
    simp [hi]
  · intro i hi hleaf
    rw [leaf_nodes0_length] at hi
    rw [leaf_nodes0_getD k hi] at hleaf
    simp at hleaf
  · intro j hj
    rw [leaf_nodes0_length] at hj
    have hmem : j ∈ List.range k := List.mem_range.2 hj
    rw [if_pos hmem]
    refine List.countP_eq_zero.2 ?_
    intro n hn
    rcases List.mem_map.1 hn with ⟨i, -, rfl⟩
    simp [is_parent_of]
  · intro x hx
    rw [leaf_nodes0_length]
    exact List.mem_range.1 hx
  · intro hemp
    have := congrArg List.length hemp
    simp at this
    omega
  · intro hone
    simp at hone
    subst hone
    rw [leaf_nodes0_length]
    decide

theorem build_tree_uninit {t : min_depth_binary_tree} {k : Nat}
    (hinit : t.initialized = false) (hk : k ≠ 0) :
    build_tree true t k =
      ({ t with
          nodes := (build_rounds k (t.nodes ++ leaf_nodes0 k) (List.range k)).1,
          root_idx := (build_rounds k (t.nodes ++ leaf_nodes0 k) (List.range k)).2.headD 0,
          num_leaf_nodes := k,
          initialized := true }, none) := by
  rw [build_tree, hinit]
  simp only [Bool.false_eq_true, if_false, if_neg hk, if_pos rfl, leaf_nodes0, if_true]

theorem built_tree_eq (k : Nat) (hk : 1 ≤ k) :
    built_tree k =
      { nodes := (build_rounds k (leaf_nodes0 k) (List.range k)).1,
        root_idx := (build_rounds k (leaf_nodes0 k) (List.range k)).2.headD 0,
        num_leaf_nodes := k,
        initialized := true } := by
  rw [built_tree, build_tree_uninit rfl (by omega)]
  have hnil : fresh_tree.nodes ++ leaf_nodes0 k = leaf_nodes0 k := by
    rw [fresh_tree]
    rfl
  simp only [hnil]

theorem built_tree_zero :
    built_tree 0 = { nodes := [], root_idx := 0, num_leaf_nodes := 0,
                     initialized := true } := rfl

/-- Core structural facts about the tree built from k declared actions:
leaf count, initialization flag, 2k-1 nodes, root id 2k-2, the k leaves
in declaration order, and the full tournament invariant with the root as
the only parentless node. -/
theorem built_tree_core (k : Nat) (hk : 1 ≤ k) :
    (built_tree k).num_leaf_nodes = k ∧
      (built_tree k).initialized = true ∧
      (built_tree k).nodes.length = 2 * k - 1 ∧
      (built_tree k).root_idx = 2 * k - 2 ∧
      (∀ i, i < k → (built_tree k).nodes.getD i default = tree_node.mk i 0 0 true) ∧
      tree_inv k (built_tree k).nodes [2 * k - 2] := by
  have hinv0 := tree_inv_init k hk
  have hrange : (List.range k).length ≤ k := by simp
  obtain ⟨hfin, hone, hlen, hpre⟩ :=
    build_rounds_inv k k (leaf_nodes0 k) (List.range k) hrange hinv0
  have hlen' : (build_rounds k (leaf_nodes0 k) (List.range k)).1.length = 2 * k - 1 := by
    rw [hlen, leaf_nodes0_length]
    simp
    omega
  have hts : (build_rounds k (leaf_nodes0 k) (List.range k)).2 = [2 * k - 2] := by
    have h1 := hfin.ts_single hone
    rw [h1, hlen']
    have h2 : 2 * k - 1 - 1 = 2 * k - 2 := by omega
    rw [h2]
  rw [built_tree_eq k hk]
  refine ⟨rfl, rfl, hlen', ?_, ?_, ?_⟩
  · show (build_rounds k (leaf_nodes0 k) (List.range k)).2.headD 0 = 2 * k - 2
    rw [hts]
    rfl
  · intro i hi
    show (build_rounds k (leaf_nodes0 k) (List.range k)).1.getD i default =
      tree_node.mk i 0 0 true
    rw [hpre i (by rw [leaf_nodes0_length]; exact hi), leaf_nodes0_getD k hi]
  · show tree_inv k (build_rounds k (leaf_nodes0 k) (List.range k)).1 [2 * k - 2]
    rw [← hts]
    exact hfin

theorem built_tree_num_leaf (k : Nat) : (built_tree k).num_leaf_nodes = k := by
  cases Nat.eq_zero_or_pos k with
  | inl h => subst h; rfl
  | inr h => exact (built_tree_core k h).1

theorem built_tree_initialized (k : Nat) : (built_tree k).initialized = true := by
  cases Nat.eq_zero_or_pos k with
  | inl h => subst h; rfl
  | inr h => exact (built_tree_core k h).2.1

theorem built_tree_internal_count (k : Nat) :
    (built_tree k).internal_node_count = k - 1 := by
  cases Nat.eq_zero_or_pos k with
  | inl h => subst h; rfl
  | inr h =>
    rw [min_depth_binary_tree.internal_node_count, (built_tree_core k h).2.2.1,
      built_tree_num_leaf]
    omega

/-- C6: for every leaf count k, building again with the same k on the
already-built tree raises nothing and returns the tree unchanged
(whatever the allocation behaviour of the second call, which reserves
nothing). -/
theorem build_tree_idempotent (k : Nat) (a : Bool) :
    build_tree a (built_tree k) k = (built_tree k, none) := by
  rw [build_tree, built_tree_initialized, if_pos rfl, built_tree_num_leaf,
    if_neg (by omega)]

/-- C7: building with a different leaf count k2 on an already-built tree
raises the configuration-conflict error (and the state is untouched). -/
theorem build_tree_conflict (k k2 : Nat) (a : Bool) (h : k2 ≠ k) :
    build_tree a (built_tree k) k2 = (built_tree k, some build_error.configConflict) := by
  rw [build_tree, built_tree_initialized, if_pos rfl, built_tree_num_leaf, if_pos h]

/-- Witness for build_tree_conflict at k = 2, k2 = 3. -/
theorem build_tree_conflict_witness :
    (3 : Nat) ≠ 2 ∧
      build_tree true (built_tree 2) 3 = (built_tree 2, some build_error.configConflict) :=
  ⟨by decide, build_tree_conflict 2 3 true (by decide)⟩

/-- C9: learn always raises the not-implemented error and returns the
state unchanged. -/
theorem learn_raises (tree : offset_tree) :
    learn tree = (tree, some learn_error.notImplemented) := rfl

/-- C8 (amended): a failing build leaves the tree uninitialized if it
was, with nodes and root untouched, but on the out-of-memory path the
requested leaf count has already been stored in _num_leaf_nodes, so the
observable state is not the pre-call state. -/
theorem build_tree_error_state (a : Bool) (t : min_depth_binary_tree) (k : Nat)
    (hfail : (build_tree a t k).2 ≠ none) :
    (build_tree a t k).1.initialized = t.initialized ∧
      (build_tree a t k).1.nodes = t.nodes ∧
      (build_tree a t k).1.root_idx = t.root_idx ∧
      (build_tree a t k).1.num_leaf_nodes =
        (if t.initialized then t.num_leaf_nodes else k) := by
  by_cases hi : t.initialized = true
  · rw [build_tree, hi, if_pos rfl] at hfail ⊢
    by_cases hne : k ≠ t.num_leaf_nodes
    · rw [if_pos hne] at hfail ⊢
      exact ⟨hi, rfl, rfl, by rw [if_pos rfl]⟩
    · rw [if_neg hne] at hfail
      exact absurd rfl hfail
  · have hi' : t.initialized = false := by simpa using hi
    rw [build_tree, hi'] at hfail ⊢
    rw [if_neg (by simp)] at hfail ⊢
    by_cases h0 : k = 0
    · rw [if_pos h0] at hfail
      exact absurd rfl hfail
    · rw [if_neg h0] at hfail ⊢
      by_cases ha : a = true
      · rw [ha, if_pos rfl] at hfail
        exact absurd rfl hfail
      · have ha' : a = false := by simpa using ha
        rw [ha', if_neg (by simp)] at hfail ⊢
        exact ⟨rfl, rfl, rfl, by rw [if_neg (by simp)]⟩

/-- Witness for build_tree_error_state: a failed allocation on a fresh
tree with 2 requested leaves. -/
theorem build_tree_error_state_witness :
    (build_tree false fresh_tree 2).2 ≠ none ∧
      ((build_tree false fresh_tree 2).1.initialized = fresh_tree.initialized ∧
        (build_tree false fresh_tree 2).1.nodes = fresh_tree.nodes ∧
        (build_tree false fresh_tree 2).1.root_idx = fresh_tree.root_idx ∧
        (build_tree false fresh_tree 2).1.num_leaf_nodes =
          (if fresh_tree.initialized then fresh_tree.num_leaf_nodes else 2)) :=
  ⟨by decide, build_tree_error_state false fresh_tree 2 (by decide)⟩

/-- C8 (counterexample to the claim as stated): the failing allocation
path returns with the tree not observably in its pre-call state, because
_num_leaf_nodes was assigned before the reservation was attempted. -/
theorem build_alloc_failure_mutates :
    (build_tree false fresh_tree 2).2 = some build_error.outOfMemory ∧
      (build_tree false fresh_tree 2).1 ≠ fresh_tree ∧
      (build_tree false fresh_tree 2).1.initialized = false ∧
      (build_tree false fresh_tree 2).1.num_leaf_nodes = 2 := by decide

/-- C2: for every k at least 1, the built tree has exactly 2k-1 nodes;
the first k positions hold the declared leaves in order; node ids are
dense (the node stored at position i has id i, so internal nodes occupy
ids k..2k-2 in creation order); a node is a leaf exactly when its id is
below k; and every internal node's id strictly exceeds the ids of both
of its children. -/
theorem built_tree_layout (k : Nat) (hk : 1 ≤ k) :
    (built_tree k).nodes.length = 2 * k - 1 ∧
      (∀ i, i < k → (built_tree k).nodes.getD i default = tree_node.mk i 0 0 true) ∧
      (∀ i, i < 2 * k - 1 → ((built_tree k).nodes.getD i default).id = i) ∧
      (∀ i, i < 2 * k - 1 →
        (((built_tree k).nodes.getD i default).is_leaf = true ↔ i < k)) ∧
      (∀ i, i < 2 * k - 1 → ((built_tree k).nodes.getD i default).is_leaf = false →
        ((built_tree k).nodes.getD i default).left_id <
            ((built_tree k).nodes.getD i default).id ∧
          ((built_tree k).nodes.getD i default).right_id <
            ((built_tree k).nodes.getD i default).id) := by
  obtain ⟨-, -, hlen, -, hleaves, hinv⟩ := built_tree_core k hk
  refine ⟨hlen, hleaves, ?_, ?_, ?_⟩
  · intro i hi
    exact hinv.dense i (by rw [hlen]; exact hi)
  · intro i hi
    exact hinv.leaf_iff i (by rw [hlen]; exact hi)
  · intro i hi hint
    have hi' : i < (built_tree k).nodes.length := by rw [hlen]; exact hi
    have hch := hinv.children i hi' hint
    rw [hinv.dense i hi']
    exact ⟨hch.1, hch.2.1⟩

/-- Witness for built_tree_layout at k = 3. -/
theorem built_tree_layout_witness :
    (1 : Nat) ≤ 3 ∧
      ((built_tree 3).nodes.length = 2 * 3 - 1 ∧
        (∀ i, i < 3 → (built_tree 3).nodes.getD i default = tree_node.mk i 0 0 true) ∧
        (∀ i, i < 2 * 3 - 1 → ((built_tree 3).nodes.getD i default).id = i) ∧
        (∀ i, i < 2 * 3 - 1 →
          (((built_tree 3).nodes.getD i default).is_leaf = true ↔ i < 3)) ∧
        (∀ i, i < 2 * 3 - 1 → ((built_tree 3).nodes.getD i default).is_leaf = false →
          ((built_tree 3).nodes.getD i default).left_id <
              ((built_tree 3).nodes.getD i default).id ∧
            ((built_tree 3).nodes.getD i default).right_id <
              ((built_tree 3).nodes.getD i default).id)) :=
  ⟨by decide, built_tree_layout 3 (by decide)⟩

/-- C4: one predict call passes the base learner no index at all when
k is 0 or 1, and otherwise exactly the indices 0..k-2 in ascending
order; the number of calls always equals internal_node_count; since the
call at index idx scores the internal node with id idx + k, the scored
node ids are exactly k..2k-2, each internal node once, ascending. -/
theorem predict_scorer_calls_spec (k : Nat) :
    (k ≤ 1 → predict_base_calls (built_tree k) = []) ∧
      (predict_base_calls (built_tree k)).length = (built_tree k).internal_node_count ∧
      (2 ≤ k → predict_base_calls (built_tree k) = List.range (k - 1)) ∧
      (2 ≤ k → (predict_base_calls (built_tree k)).map (fun idx => idx + k) =
        List.range' k (k - 1)) := by
  have hleaf : (built_tree k).leaf_node_count = k := built_tree_num_leaf k
  by_cases h0 : k = 0
  · subst h0
    refine ⟨fun _ => rfl, rfl, ?_, ?_⟩ <;> omega
  · by_cases h1 : k = 1
    · subst h1
      refine ⟨fun _ => rfl, rfl, ?_, ?_⟩ <;> omega
    · have hcalls : predict_base_calls (built_tree k) =
          List.range ((built_tree k).internal_node_count) := by
        rw [predict_base_calls, hleaf, if_neg h0, if_neg h1]
      refine ⟨fun hle => by omega, ?_, ?_, ?_⟩
      · rw [hcalls]
        simp
      · intro h2
        rw [hcalls, built_tree_internal_count]
      · intro h2
        rw [hcalls, built_tree_internal_count, List.range'_eq_map_range]
        have hfun : (fun idx => idx + k) = (fun idx => k + idx) := by
          funext idx
          omega
        rw [hfun]

/-- Witness for predict_scorer_calls_spec at k = 4: three calls with
indices 0, 1, 2 scoring nodes 4, 5, 6. -/
theorem predict_scorer_calls_witness :
    (2 : Nat) ≤ 4 ∧
      (predict_base_calls (built_tree 4)).map (fun idx => idx + 4) =
        List.range' 4 (4 - 1) :=
  ⟨by decide, (predict_scorer_calls_spec 4).2.2.2 (by decide)⟩

theorem parent_of_spec {k : Nat} {ns : List tree_node} {r : Nat}
    (hinv : tree_inv k ns [r]) {j : Nat} (hj : j < ns.length) (hjr : j ≠ r) :
    ∃ p, parent_of ns j = some p ∧ is_parent_of p j = true ∧
      j < p.id ∧ p.id < ns.length ∧ ns.getD p.id default = p ∧
      (∀ q ∈ ns, is_parent_of q j = true → q = p) := by
  have hc : parent_count ns j = 1 := by
    rw [hinv.pcount j hj, if_neg (by simp [hjr])]
  rcases find?_of_countP_one _ ns hc with ⟨p, hfind, hp, huniq⟩
  have hmem : p ∈ ns := List.mem_of_find?_eq_some hfind
  have hlt := tree_inv_parent_lt hinv hmem hp
  have hgd : ns.getD p.id default = p := by
    rcases mem_listGetD default hmem with ⟨i, hi, hgd⟩
    have hpi : p.id = i := by rw [← hgd]; exact hinv.dense i hi
    rw [hpi, hgd]
  exact ⟨p, hfind, hp, hlt.1, hlt.2, hgd, huniq⟩

theorem parent_of_root {k : Nat} {ns : List tree_node} {r : Nat}
    (hinv : tree_inv k ns [r]) : parent_of ns r = none := by
  by_cases hr : r < ns.length
  · refine find?_of_countP_zero _ _ ?_
    show parent_count ns r = 0
    rw [hinv.pcount r hr, if_pos (by simp)]
  · exact find?_of_countP_zero _ _ (parent_count_out hinv (by omega))

theorem parent_of_out {k : Nat} {ns : List tree_node} {ts : List Nat}
    (hinv : tree_inv k ns ts) {j : Nat} (hj : ns.length ≤ j) :
    parent_of ns j = none :=
  find?_of_countP_zero _ _ (parent_count_out hinv hj)

theorem parent_of_mem_facts {k : Nat} {ns : List tree_node} {ts : List Nat}
    (hinv : tree_inv k ns ts) {j : Nat} {p : tree_node}
    (hpar : parent_of ns j = some p) :
    is_parent_of p j = true ∧ j < p.id ∧ p.id < ns.length ∧
      ns.getD p.id default = p := by
  have hp := List.find?_some hpar
  have hmem := List.mem_of_find?_eq_some hpar
  have hlt := tree_inv_parent_lt hinv hmem hp
  have hgd : ns.getD p.id default = p := by
    rcases mem_listGetD default hmem with ⟨i, hi, hgd⟩
    have hpi : p.id = i := by rw [← hgd]; exact hinv.dense i hi
    rw [hpi, hgd]
  exact ⟨hp, hlt.1, hlt.2, hgd⟩

theorem mass_above_of_none {t : min_depth_binary_tree} (scorer : Nat → ℚ × ℚ)
    {j : Nat} (hpar : parent_of t.nodes j = none) :
    ∀ f, mass_above t scorer f j = 1 := by
  intro f
  cases f with
  | zero => rfl
  | succ f => rw [mass_above, hpar]

theorem path_above_of_none {ns : List tree_node} {j : Nat}
    (hpar : parent_of ns j = none) : ∀ f, path_above ns f j = [] := by
  intro f
  cases f with
  | zero => rfl
  | succ f => rw [path_above, hpar]

theorem mass_above_congr {k : Nat} {t : min_depth_binary_tree} {ts : List Nat}
    (hinv : tree_inv k t.nodes ts) (scorer : Nat → ℚ × ℚ) :
    ∀ (f1 f2 j : Nat), t.nodes.length - j ≤ f1 → t.nodes.length - j ≤ f2 →
      mass_above t scorer f1 j = mass_above t scorer f2 j := by
  intro f1
  induction f1 with
  | zero =>
    intro f2 j h1 h2
    have hpar : parent_of t.nodes j = none := parent_of_out hinv (by omega)
    rw [mass_above_of_none scorer hpar, mass_above_of_none scorer hpar]
  | succ f1 ih =>
    intro f2 j h1 h2
    cases f2 with
    | zero =>
      have hpar : parent_of t.nodes j = none := parent_of_out hinv (by omega)
      rw [mass_above_of_none scorer hpar, mass_above_of_none scorer hpar]
    | succ f2 =>
      rw [mass_above, mass_above]
      cases hpar : parent_of t.nodes j with
      | none => rfl
      | some p =>
        obtain ⟨-, hjp, hplt, -⟩ := parent_of_mem_facts hinv hpar
        have hrec := ih f2 p.id (by omega) (by omega)
        simp only [hrec]

theorem path_above_congr {k : Nat} {ns : List tree_node} {ts : List Nat}
    (hinv : tree_inv k ns ts) :
    ∀ (f1 f2 j : Nat), ns.length - j ≤ f1 → ns.length - j ≤ f2 →
      path_above ns f1 j = path_above ns f2 j := by
  intro f1
  induction f1 with
  | zero =>
    intro f2 j h1 h2
    have hpar : parent_of ns j = none := parent_of_out hinv (by omega)
    rw [path_above_of_none hpar, path_above_of_none hpar]
  | succ f1 ih =>
    intro f2 j h1 h2
    cases f2 with
    | zero =>
      have hpar : parent_of ns j = none := parent_of_out hinv (by omega)
      rw [path_above_of_none hpar, path_above_of_none hpar]
    | succ f2 =>
      rw [path_above, path_above]
      cases hpar : parent_of ns j with
      | none => rfl
      | some p =>
        obtain ⟨-, hjp, hplt, -⟩ := parent_of_mem_facts hinv hpar
        have hrec := ih f2 p.id (by omega) (by omega)
        simp only [hrec]

theorem node_mass_of_none {t : min_depth_binary_tree} (scorer : Nat → ℚ × ℚ)
    {j : Nat} (hpar : parent_of t.nodes j = none) : node_mass t scorer j = 1 :=
  mass_above_of_none scorer hpar _

theorem node_mass_parent {k : Nat} {t : min_depth_binary_tree} {ts : List Nat}
    (hinv : tree_inv k t.nodes ts) (scorer : Nat → ℚ × ℚ) {j : Nat}
    {p : tree_node} (hpar : parent_of t.nodes j = some p) :
    node_mass t scorer j = node_mass t scorer p.id *
      (if j = p.left_id then (scorer (p.id - t.leaf_node_count)).1
       else (scorer (p.id - t.leaf_node_count)).2) := by
  obtain ⟨-, hjp, hplt, -⟩ := parent_of_mem_facts hinv hpar
  rw [node_mass, node_mass]
  have hN : t.nodes.length = (t.nodes.length - 1) + 1 := by omega
  rw [hN, mass_above, hpar]
  have hrec : mass_above t scorer (t.nodes.length - 1) p.id =
      mass_above t scorer (t.nodes.length - 1 + 1) p.id :=
    mass_above_congr hinv scorer _ _ p.id (by omega) (by omega)
  simp only [hrec]

theorem listGetD_take {α : Type} (l : List α) (d : α) {n i : Nat} (h : i < n) :
    (l.take n).getD i d = l.getD i d := by
  rw [listGetD_get?, listGetD_get?, List.get?_take h]

theorem listGetD_drop {α : Type} (l : List α) (d : α) (n i : Nat) :
    (l.drop n).getD i d = l.getD (n + i) d := by
  rw [listGetD_get?, listGetD_get?, List.get?_drop]

theorem fold_from_base {t : min_depth_binary_tree} (scorer : Nat → ℚ × ℚ)
    (stale : List ℚ) {m : Nat} (hm : t.nodes.length ≤ m) :
    fold_from t scorer stale m =
      ⟨(List.range t.internal_node_count).map scorer,
        resize_scores stale t.leaf_node_count⟩ := by
  rw [fold_from, List.drop_eq_nil_of_le hm]
  rfl

theorem fold_from_step {t : min_depth_binary_tree} (scorer : Nat → ℚ × ℚ)
    (stale : List ℚ) {m : Nat} (hm : m < t.nodes.length) :
    fold_from t scorer stale m =
      prop_step t (fold_from t scorer stale (m + 1)) (t.nodes.getD m default) := by
  rw [fold_from, fold_from, List.drop_eq_get_cons hm, List.reverse_cons,
    List.foldl_append, listGetD_eq_get _ _ hm]
  rfl

theorem fold_inv_base (k : Nat) (hk : 2 ≤ k) (scorer : Nat → ℚ × ℚ)
    (stale : List ℚ) : fold_inv k scorer stale (2 * k - 1) := by
  obtain ⟨hnum, -, hN, -, -, hinv⟩ := built_tree_core k (by omega)
  have hlb : (built_tree k).leaf_node_count = k := hnum
  have hintc : (built_tree k).internal_node_count = k - 1 := built_tree_internal_count k
  have hbase := fold_from_base (t := built_tree k) scorer stale
    (m := 2 * k - 1) (by omega)
  rw [fold_inv, hbase, hlb, hintc]
  refine ⟨resize_scores_length stale k, by simp, ?_, ?_⟩
  · intro i hi
    cases hpar : parent_of (built_tree k).nodes i with
    | none => rfl
    | some p =>
      obtain ⟨-, -, hplt, -⟩ := parent_of_mem_facts hinv hpar
      have hple : ¬(2 * k - 1 ≤ p.id) := by omega
      simp only [if_neg hple]
  · intro j hjk hjN
    rw [listGetD_map_range scorer (0, 0) (by omega)]
    have hco : fold_coeff k scorer (2 * k - 1) j = 1 := by
      rw [fold_coeff]
      cases hpar : parent_of (built_tree k).nodes j with
      | none => rfl
      | some p =>
        obtain ⟨-, -, hplt, -⟩ := parent_of_mem_facts hinv hpar
        have hple : ¬(2 * k - 1 ≤ p.id) := by omega
        simp only [if_neg hple]
    rw [hco, one_mul, one_mul]

theorem fold_inv_step (k : Nat) (hk : 2 ≤ k) (scorer : Nat → ℚ × ℚ)
    (stale : List ℚ) (m : Nat) (hmk : k ≤ m) (hmN : m < 2 * k - 1)
    (IH : fold_inv k scorer stale (m + 1)) : fold_inv k scorer stale m := by
  obtain ⟨hnum, -, hN, -, -, hinv⟩ := built_tree_core k (by omega)
  obtain ⟨IH1, IH2, IH3, IH4⟩ := IH
  have hlb : (built_tree k).leaf_node_count = k := hnum
  have hmlt : m < (built_tree k).nodes.length := by omega
  set st := fold_from (built_tree k) scorer stale (m + 1) with hst
  set n := (built_tree k).nodes.getD m default with hn
  have hid : n.id = m := hinv.dense m hmlt
  have hnleaf : n.is_leaf = false := by
    rcases Bool.eq_false_or_eq_true n.is_leaf with hb | hb
    · have := (hinv.leaf_iff m hmlt).1 hb
      omega
    · exact hb
  obtain ⟨hchL, hchR, hLR⟩ := hinv.children m hmlt hnleaf
  rw [← hn] at hchL hchR hLR
  have hLlt : n.left_id < (built_tree k).nodes.length := by omega
  have hRlt : n.right_id < (built_tree k).nodes.length := by omega
  have hnmem : n ∈ (built_tree k).nodes := by
    rw [hn]
    exact listGetD_mem default hmlt
  have hparL : parent_of (built_tree k).nodes n.left_id = some n := by
    obtain ⟨p, hfind, -, -, -, -, huniq⟩ :=
      parent_of_spec hinv (j := n.left_id) hLlt (by omega)
    rw [hfind, huniq n hnmem (by simp [is_parent_of, hnleaf])]
  have hparR : parent_of (built_tree k).nodes n.right_id = some n := by
    obtain ⟨p, hfind, -, -, -, -, huniq⟩ :=
      parent_of_spec hinv (j := n.right_id) hRlt (by omega)
    rw [hfind, huniq n hnmem (by simp [is_parent_of, hnleaf])]
  have hchildm : ∀ x (p : tree_node), parent_of (built_tree k).nodes x = some p →
      p.id = m → x = n.left_id ∨ x = n.right_id := by
    intro x p hpar hpm
    obtain ⟨hp, -, -, hgd⟩ := parent_of_mem_facts hinv hpar
    have hpn : p = n := by rw [← hgd, hpm, ← hn]
    rw [hpn] at hp
    simp only [is_parent_of, Bool.and_eq_true, Bool.or_eq_true, beq_iff_eq] at hp
    rcases hp.2 with h | h
    · exact Or.inl h.symm
    · exact Or.inr h.symm
  have hbufm : st.buffer.getD (m - k) (0, 0) =
      (node_mass (built_tree k) scorer m * (scorer (m - k)).1,
        node_mass (built_tree k) scorer m * (scorer (m - k)).2) := by
    have hco : fold_coeff k scorer (m + 1) m = node_mass (built_tree k) scorer m := by
      rw [fold_coeff]
      cases hpar : parent_of (built_tree k).nodes m with
      | none => rw [node_mass_of_none scorer hpar]
      | some p =>
        obtain ⟨-, hpgt, -, -⟩ := parent_of_mem_facts hinv hpar
        simp only [if_pos (show m + 1 ≤ p.id by omega)]
    rw [IH4 m hmk hmN, hco]
  have hmassL : node_mass (built_tree k) scorer n.left_id =
      node_mass (built_tree k) scorer m * (scorer (m - k)).1 := by
    rw [node_mass_parent hinv scorer hparL, hid, hlb, if_pos rfl]
  have hmassR : node_mass (built_tree k) scorer n.right_id =
      node_mass (built_tree k) scorer m * (scorer (m - k)).2 := by
    rw [node_mass_parent hinv scorer hparR, hid, hlb,
      if_neg (show ¬n.right_id = n.left_id by omega)]
  have hbufL : k ≤ n.left_id → st.buffer.getD (n.left_id - k) (0, 0) =
      ((scorer (n.left_id - k)).1, (scorer (n.left_id - k)).2) := by
    intro hkL
    have hco : fold_coeff k scorer (m + 1) n.left_id = 1 := by
      rw [fold_coeff, hparL]
      simp only [hid, if_neg (show ¬m + 1 ≤ m by omega)]
    rw [IH4 n.left_id hkL (by omega), hco, one_mul, one_mul]
  have hbufR : k ≤ n.right_id → st.buffer.getD (n.right_id - k) (0, 0) =
      ((scorer (n.right_id - k)).1, (scorer (n.right_id - k)).2) := by
    intro hkR
    have hco : fold_coeff k scorer (m + 1) n.right_id = 1 := by
      rw [fold_coeff, hparR]
      simp only [hid, if_neg (show ¬m + 1 ≤ m by omega)]
    rw [IH4 n.right_id hkR (by omega), hco, one_mul, one_mul]
  have hcoL : fold_coeff k scorer m n.left_id =
      node_mass (built_tree k) scorer n.left_id := by
    rw [fold_coeff, hparL]
    simp only [hid, if_pos (le_refl m)]
  have hcoR : fold_coeff k scorer m n.right_id =
      node_mass (built_tree k) scorer n.right_id := by
    rw [fold_coeff, hparR]
    simp only [hid, if_pos (le_refl m)]
  have hcoeff_eq : ∀ j, ¬j = n.left_id → ¬j = n.right_id →
      fold_coeff k scorer (m + 1) j = fold_coeff k scorer m j := by
    intro j h1 h2
    rw [fold_coeff, fold_coeff]
    cases hpar : parent_of (built_tree k).nodes j with
    | none => rfl
    | some p =>
      have hpm : p.id ≠ m := fun hpm => by
        rcases hchildm j p hpar hpm with h | h
        exacts [h1 h, h2 h]
      by_cases hge : m + 1 ≤ p.id
      · simp only [if_pos hge, if_pos (show m ≤ p.id by omega)]
      · simp only [if_neg hge, if_neg (show ¬m ≤ p.id by omega)]
  have hmatch_eq : ∀ i, ¬i = n.left_id → ¬i = n.right_id →
      (match parent_of (built_tree k).nodes i with
        | none => (resize_scores stale k).getD i 0
        | some p =>
          if m + 1 ≤ p.id then node_mass (built_tree k) scorer i
          else (resize_scores stale k).getD i 0) =
      (match parent_of (built_tree k).nodes i with
        | none => (resize_scores stale k).getD i 0
        | some p =>
          if m ≤ p.id then node_mass (built_tree k) scorer i
          else (resize_scores stale k).getD i 0) := by
    intro i h1 h2
    cases hpar : parent_of (built_tree k).nodes i with
    | none => rfl
    | some p =>
      have hpm : p.id ≠ m := fun hpm => by
        rcases hchildm i p hpar hpm with h | h
        exacts [h1 h, h2 h]
      by_cases hge : m + 1 ≤ p.id
      · simp only [if_pos hge, if_pos (show m ≤ p.id by omega)]
      · simp only [if_neg hge, if_neg (show ¬m ≤ p.id by omega)]
  rw [fold_inv, fold_from_step scorer stale hmlt, ← hst, ← hn]
  simp only [prop_step, hid, hlb]
  by_cases hA : n.left_id < k
  · have hcA : ((built_tree k).nodes.getD n.left_id default).is_leaf = true :=
      (hinv.leaf_iff _ hLlt).2 hA
    simp only [if_pos hcA]
    by_cases hB : n.right_id < k
    · have hcB : ((built_tree k).nodes.getD n.right_id default).is_leaf = true :=
        (hinv.leaf_iff _ hRlt).2 hB
      simp only [if_pos hcB]
      refine ⟨?_, ?_, ?_, ?_⟩
      · simp only [List.length_set]
        exact IH1
      · exact IH2
      · intro i hi
        by_cases hiR : i = n.right_id
        · subst hiR
          rw [listGetD_set_self _ _ (by rw [List.length_set, IH1]; omega)]
          simp only [hbufm, hparR, hid, if_pos (le_refl m), hmassR]
        · by_cases hiL : i = n.left_id
          · subst hiL
            rw [listGetD_set_ne _ _ (by omega),
              listGetD_set_self _ _ (by rw [IH1]; omega)]
            simp only [hbufm, hparL, hid, if_pos (le_refl m), hmassL]
          · rw [listGetD_set_ne _ _ (fun h => hiR h.symm),
              listGetD_set_ne _ _ (fun h => hiL h.symm)]
            rw [IH3 i hi, hmatch_eq i hiL hiR]
      · intro j hjk hjN
        rw [IH4 j hjk hjN, hcoeff_eq j (by omega) (by omega)]
    · have hcB' : ¬((built_tree k).nodes.getD n.right_id default).is_leaf = true :=
        fun h => absurd ((hinv.leaf_iff _ hRlt).1 h) hB
      simp only [if_neg hcB']
      refine ⟨?_, ?_, ?_, ?_⟩
      · simp only [List.length_set]
        exact IH1
      · simp only [List.length_set]
        exact IH2
      · intro i hi
        by_cases hiL : i = n.left_id
        · subst hiL
          rw [listGetD_set_self _ _ (by rw [IH1]; omega)]
          simp only [hbufm, hparL, hid, if_pos (le_refl m), hmassL]
        · rw [listGetD_set_ne _ _ (fun h => hiL h.symm)]
          rw [IH3 i hi, hmatch_eq i hiL (by omega)]
      · intro j hjk hjN
        by_cases hjR : j = n.right_id
        · subst hjR
          rw [listGetD_set_self _ _ (by rw [IH2]; omega)]
          rw [hbufR (by omega), hbufm, hcoR, hmassR]
          simp only [Prod.mk.injEq]
          constructor <;> ring
        · rw [listGetD_set_ne _ _ (show ¬n.right_id - k = j - k by omega)]
          rw [IH4 j hjk hjN, hcoeff_eq j (by omega) hjR]
  · have hcA' : ¬((built_tree k).nodes.getD n.left_id default).is_leaf = true :=
      fun h => absurd ((hinv.leaf_iff _ hLlt).1 h) hA
    simp only [if_neg hcA']
    have hfix : (st.buffer.set (n.left_id - k)
        ((st.buffer.getD (n.left_id - k) (0, 0)).1 *
            (st.buffer.getD (m - k) (0, 0)).1,
          (st.buffer.getD (n.left_id - k) (0, 0)).2 *
            (st.buffer.getD (m - k) (0, 0)).1)).getD (m - k) (0, 0) =
        st.buffer.getD (m - k) (0, 0) :=
      listGetD_set_ne _ _ (show ¬n.left_id - k = m - k by omega)
    simp only [hfix]
    by_cases hB : n.right_id < k
    · have hcB : ((built_tree k).nodes.getD n.right_id default).is_leaf = true :=
        (hinv.leaf_iff _ hRlt).2 hB
      simp only [if_pos hcB]
      refine ⟨?_, ?_, ?_, ?_⟩
      · simp only [List.length_set]
        exact IH1
      · simp only [List.length_set]
        exact IH2
      · intro i hi
        by_cases hiR : i = n.right_id
        · subst hiR
          rw [listGetD_set_self _ _ (by rw [IH1]; omega)]
          simp only [hbufm, hparR, hid, if_pos (le_refl m), hmassR]
        · rw [listGetD_set_ne _ _ (fun h => hiR h.symm)]
          rw [IH3 i hi, hmatch_eq i (by omega) hiR]
      · intro j hjk hjN
        by_cases hjL : j = n.left_id
        · subst hjL
          rw [listGetD_set_self _ _ (by rw [IH2]; omega)]
          rw [hbufL (by omega), hbufm, hcoL, hmassL]
          simp only [Prod.mk.injEq]
          constructor <;> ring
        · rw [listGetD_set_ne _ _ (show ¬n.left_id - k = j - k by omega)]
          rw [IH4 j hjk hjN, hcoeff_eq j hjL (by omega)]
    · have hcB' : ¬((built_tree k).nodes.getD n.right_id default).is_leaf = true :=
        fun h => absurd ((hinv.leaf_iff _ hRlt).1 h) hB
      simp only [if_neg hcB']
      refine ⟨?_, ?_, ?_, ?_⟩
      · exact IH1
      · simp only [List.length_set]
        exact IH2
      · intro i hi
        rw [IH3 i hi, hmatch_eq i (by omega) (by omega)]
      · intro j hjk hjN
        by_cases hjR : j = n.right_id
        · subst hjR
          rw [listGetD_set_self _ _ (by rw [List.length_set, IH2]; omega)]
          rw [listGetD_set_ne _ _ (show ¬n.left_id - k = n.right_id - k by omega)]
          rw [hbufR (by omega), hbufm, hcoR, hmassR]
          simp only [Prod.mk.injEq]
          constructor <;> ring
        · by_cases hjL : j = n.left_id
          · subst hjL
            rw [listGetD_set_ne _ _ (show ¬n.right_id - k = n.left_id - k by omega),
              listGetD_set_self _ _ (by rw [IH2]; omega)]
            rw [hbufL (by omega), hbufm, hcoL, hmassL]
            simp only [Prod.mk.injEq]
            constructor <;> ring
          · rw [listGetD_set_ne _ _ (show ¬n.right_id - k = j - k by omega),
              listGetD_set_ne _ _ (show ¬n.left_id - k = j - k by omega)]
            rw [IH4 j hjk hjN, hcoeff_eq j hjL hjR]

theorem fold_inv_all (k : Nat) (hk : 2 ≤ k) (scorer : Nat → ℚ × ℚ)
    (stale : List ℚ) :
    ∀ (d m : Nat), k ≤ m → m ≤ 2 * k - 1 → 2 * k - 1 - m ≤ d →
      fold_inv k scorer stale m := by
  intro d
  induction d with
  | zero =>
    intro m hmk hmN hd
    have hm : m = 2 * k - 1 := by omega
    rw [hm]
    exact fold_inv_base k hk scorer stale
  | succ d ih =>
    intro m hmk hmN hd
    by_cases hm : m = 2 * k - 1
    · rw [hm]
      exact fold_inv_base k hk scorer stale
    · exact fold_inv_step k hk scorer stale m hmk (by omega)
        (ih (m + 1) (by omega) (by omega) (by omega))

theorem predict_toProcess (k : Nat) (hk : 2 ≤ k) :
    (built_tree k).nodes.reverse.takeWhile (fun nd => !nd.is_leaf) =
      ((built_tree k).nodes.drop k).reverse := by
  obtain ⟨-, -, hN, -, -, hinv⟩ := built_tree_core k (by omega)
  have hsplit := List.take_append_drop k (built_tree k).nodes
  have hint : ∀ nd ∈ ((built_tree k).nodes.drop k).reverse, (!nd.is_leaf) = true := by
    intro nd hnd
    rw [List.mem_reverse] at hnd
    rcases mem_listGetD default hnd with ⟨i, hi, hgd0⟩
    have hi' : k + i < (built_tree k).nodes.length := by
      rw [List.length_drop] at hi
      omega
    rw [listGetD_drop] at hgd0
    have hleaf := hinv.leaf_iff (k + i) hi'
    rw [hgd0] at hleaf
    rcases Bool.eq_false_or_eq_true nd.is_leaf with hb | hb
    · exact absurd (hleaf.1 hb) (by omega)
    · simp [hb]
  conv_lhs => rw [← hsplit]
  rw [List.reverse_append, takeWhile_append_all _ _ _ hint]
  suffices hempty : ((built_tree k).nodes.take k).reverse.takeWhile
      (fun nd => !nd.is_leaf) = [] by rw [hempty, List.append_nil]
  cases hrev : ((built_tree k).nodes.take k).reverse with
  | nil => rfl
  | cons c rest =>
    have hc : c ∈ ((built_tree k).nodes.take k).reverse := by
      rw [hrev]
      exact List.mem_cons_self c rest
    rw [List.mem_reverse] at hc
    rcases mem_listGetD default hc with ⟨i, hi, hgd⟩
    have hik : i < k := by
      rw [List.length_take] at hi
      omega
    rw [listGetD_take _ _ hik] at hgd
    have hleaf : c.is_leaf = true := by
      have h := hinv.leaf_iff i (by omega)
      rw [hgd] at h
      exact h.2 hik
    rw [List.takeWhile_cons, if_neg (by simp [hleaf])]

theorem predict_eq_fold (k : Nat) (hk : 2 ≤ k) (scorer : Nat → ℚ × ℚ)
    (stale : List ℚ) :
    predict (built_tree k) scorer stale =
      (fold_from (built_tree k) scorer stale k).scores := by
  have hlb : (built_tree k).leaf_node_count = k := built_tree_num_leaf k
  simp only [predict, fold_from, hlb]
  rw [if_neg (by omega), if_neg (by omega), predict_toProcess k hk]

/-- For a built tree with at least two leaves, predict returns the vector
of root-relative leaf masses. -/
theorem predict_built_eq_mass (k : Nat) (hk : 2 ≤ k) (scorer : Nat → ℚ × ℚ)
    (stale : List ℚ) :
    (predict (built_tree k) scorer stale).length = k ∧
      ∀ i, i < k → (predict (built_tree k) scorer stale).getD i 0 =
        node_mass (built_tree k) scorer i := by
  obtain ⟨h1, -, h3, -⟩ :=
    fold_inv_all k hk scorer stale (2 * k - 1 - k) k (le_refl k) (by omega) (le_refl _)
  rw [predict_eq_fold k hk]
  refine ⟨h1, ?_⟩
  intro i hi
  rw [h3 i hi]
  obtain ⟨-, -, hN, -, -, hinv⟩ := built_tree_core k (by omega)
  obtain ⟨p, hfind, hp, hgt, hplt, hgd, -⟩ :=
    parent_of_spec hinv (j := i) (by omega) (by omega)
  have hpk : k ≤ p.id := by
    have hpl : p.is_leaf = false := by
      simp only [is_parent_of, Bool.and_eq_true, Bool.not_eq_true'] at hp
      exact hp.1
    have h := hinv.leaf_iff p.id hplt
    rw [hgd] at h
    rcases Nat.lt_or_ge p.id k with hlt | hge
    · exact absurd (h.2 hlt) (by rw [hpl]; simp)
    · exact hge
  rw [hfind]
  simp only [if_pos hpk]

theorem path_above_unfold {k : Nat} {t : min_depth_binary_tree} {ts : List Nat}
    (hinv : tree_inv k t.nodes ts) {j : Nat} {p : tree_node}
    (hpar : parent_of t.nodes j = some p) :
    path_above t.nodes t.nodes.length j =
      p.id :: path_above t.nodes t.nodes.length p.id := by
  obtain ⟨-, hjp, hplt, -⟩ := parent_of_mem_facts hinv hpar
  have hN : t.nodes.length = (t.nodes.length - 1) + 1 := by omega
  conv_lhs => rw [hN]
  rw [path_above, hpar]
  have hrec : path_above t.nodes (t.nodes.length - 1) p.id =
      path_above t.nodes t.nodes.length p.id :=
    path_above_congr hinv _ _ p.id (by omega) (by omega)
  simp only [hrec]

theorem root_path_getLast {k : Nat} {t : min_depth_binary_tree} {r : Nat}
    (hinv : tree_inv k t.nodes [r]) :
    ∀ (c j : Nat), t.nodes.length - j ≤ c → j < t.nodes.length →
      (j :: path_above t.nodes t.nodes.length j).getLast? = some r := by
  intro c
  induction c with
  | zero =>
    intro j hc hj
    omega
  | succ c ih =>
    intro j hc hj
    by_cases hjr : j = r
    · subst hjr
      rw [path_above_of_none (parent_of_root hinv)]
      rfl
    · obtain ⟨p, hfind, -, hjp, hplt, -, -⟩ := parent_of_spec hinv hj hjr
      rw [path_above_unfold hinv hfind, List.getLast?_cons_cons]
      exact ih p.id (by omega) hplt

theorem root_path_chain {k : Nat} {t : min_depth_binary_tree} {r : Nat}
    (hinv : tree_inv k t.nodes [r]) :
    ∀ (c j : Nat), t.nodes.length - j ≤ c → j < t.nodes.length →
      List.Chain' (flip (child_step t)) (j :: path_above t.nodes t.nodes.length j) := by
  intro c
  induction c with
  | zero =>
    intro j hc hj
    omega
  | succ c ih =>
    intro j hc hj
    by_cases hjr : j = r
    · subst hjr
      rw [path_above_of_none (parent_of_root hinv)]
      exact List.chain'_singleton _
    · obtain ⟨p, hfind, hp, hjp, hplt, hgd, -⟩ := parent_of_spec hinv hj hjr
      rw [path_above_unfold hinv hfind, List.chain'_cons]
      constructor
      · show child_step t p.id j
        simp only [is_parent_of, Bool.and_eq_true, Bool.not_eq_true', Bool.or_eq_true,
          beq_iff_eq] at hp
        refine ⟨by rw [hgd]; exact hp.1, ?_⟩
        rw [hgd]
        rcases hp.2 with h | h
        · exact Or.inl h.symm
        · exact Or.inr h.symm
      · exact ih p.id (by omega) hplt

theorem up_chain_unique {k : Nat} {t : min_depth_binary_tree} {r : Nat}
    (hinv : tree_inv k t.nodes [r]) :
    ∀ (u : List Nat) (j : Nat), List.Chain' (flip (child_step t)) (j :: u) →
      (j :: u).getLast? = some r →
      j :: u = j :: path_above t.nodes t.nodes.length j := by
  intro u
  induction u with
  | nil =>
    intro j hchain hlast
    have hjr : j = r := by simpa using hlast
    subst hjr
    rw [path_above_of_none (parent_of_root hinv)]
  | cons b u' ih =>
    intro j hchain hlast
    rw [List.chain'_cons] at hchain
    obtain ⟨hbleaf, hbj⟩ := hchain.1
    have hblt : b < t.nodes.length := by
      by_contra hge
      rw [listGetD_out default (by omega)] at hbleaf
      simp at hbleaf
    have hbid : (t.nodes.getD b default).id = b := hinv.dense b hblt
    have hpred : is_parent_of (t.nodes.getD b default) j = true := by
      simp only [is_parent_of, hbleaf, Bool.not_false, Bool.true_and, Bool.or_eq_true,
        beq_iff_eq]
      rcases hbj with h | h
      · exact Or.inl h.symm
      · exact Or.inr h.symm
    have hjb : j < b := by
      have hch := hinv.children b hblt hbleaf
      rcases hbj with h | h <;> omega
    have hjlt : j < t.nodes.length := by omega
    have hjr : j ≠ r := by
      intro hjr
      subst hjr
      have h1 : parent_count t.nodes j = 0 := by
        rw [hinv.pcount j hjlt, if_pos (by simp)]
      have h2 : 0 < parent_count t.nodes j :=
        List.countP_pos.2 ⟨_, listGetD_mem default hblt, hpred⟩
      omega
    obtain ⟨p, hfind, -, -, -, -, huniq⟩ := parent_of_spec hinv hjlt hjr
    have hpb : p = t.nodes.getD b default :=
      (huniq _ (listGetD_mem default hblt) hpred).symm
    rw [List.getLast?_cons_cons] at hlast
    have hrest := ih b hchain.2 hlast
    rw [path_above_unfold hinv hfind, hpb, hbid]
    rw [List.cons.injEq] at hrest
    rw [hrest.2]

theorem path_prod_append (t : min_depth_binary_tree) (scorer : Nat → ℚ × ℚ) :
    ∀ (l : List Nat) (b : Nat), path_prod t scorer (l ++ [b]) =
      path_prod t scorer l * last_branch t scorer l b
  | [], b => by
    show path_prod t scorer [b] = 1 * 1
    norm_num [path_prod]
  | [a], b => by
    show branch_prob t scorer a b * path_prod t scorer [b] =
      path_prod t scorer [a] * branch_prob t scorer a b
    show branch_prob t scorer a b * 1 = 1 * branch_prob t scorer a b
    ring
  | a :: c :: l, b => by
    have ih := path_prod_append t scorer (c :: l) b
    calc path_prod t scorer ((a :: c :: l) ++ [b])
        = branch_prob t scorer a c * path_prod t scorer ((c :: l) ++ [b]) := rfl
      _ = branch_prob t scorer a c *
            (path_prod t scorer (c :: l) * last_branch t scorer (c :: l) b) := by
          rw [ih]
      _ = (branch_prob t scorer a c * path_prod t scorer (c :: l)) *
            last_branch t scorer (a :: c :: l) b := by
          show _ = (branch_prob t scorer a c * path_prod t scorer (c :: l)) *
            last_branch t scorer (c :: l) b
          ring

theorem last_branch_append (t : min_depth_binary_tree) (scorer : Nat → ℚ × ℚ) :
    ∀ (l : List Nat) (a b : Nat),
      last_branch t scorer (l ++ [a]) b = branch_prob t scorer a b
  | [], a, b => rfl
  | [x], a, b => rfl
  | x :: y :: l, a, b => by
    show last_branch t scorer ((y :: l) ++ [a]) b = branch_prob t scorer a b
    exact last_branch_append t scorer (y :: l) a b

theorem path_prod_mass {k : Nat} {t : min_depth_binary_tree} {r : Nat}
    (hinv : tree_inv k t.nodes [r]) (scorer : Nat → ℚ × ℚ) :
    ∀ (c j : Nat), t.nodes.length - j ≤ c →
      path_prod t scorer ((j :: path_above t.nodes t.nodes.length j).reverse) =
        node_mass t scorer j := by
  intro c
  induction c with
  | zero =>
    intro j hc
    have hpar : parent_of t.nodes j = none := parent_of_out hinv (by omega)
    rw [path_above_of_none hpar, node_mass_of_none scorer hpar]
    rfl
  | succ c ih =>
    intro j hc
    cases hpar : parent_of t.nodes j with
    | none =>
      rw [path_above_of_none hpar, node_mass_of_none scorer hpar]
      rfl
    | some p =>
      obtain ⟨-, hjp, hplt, hgd⟩ := parent_of_mem_facts hinv hpar
      rw [path_above_unfold hinv hpar]
      rw [List.reverse_cons j]
      rw [path_prod_append]
      rw [List.reverse_cons p.id]
      rw [last_branch_append]
      rw [← List.reverse_cons p.id]
      rw [ih p.id (by omega)]
      rw [node_mass_parent hinv scorer hpar, branch_prob, hgd]

theorem predict_zero (scorer : Nat → ℚ × ℚ) (stale : List ℚ) :
    predict (built_tree 0) scorer stale = [] := by
  have h0 : (built_tree 0).leaf_node_count = 0 := built_tree_num_leaf 0
  simp only [predict, h0, if_pos rfl]
  rw [resize_scores]
  simp

theorem predict_one (scorer : Nat → ℚ × ℚ) (stale : List ℚ) :
    predict (built_tree 1) scorer stale = [1] := by
  have h1 : (built_tree 1).leaf_node_count = 1 := built_tree_num_leaf 1
  simp only [predict, h1]
  rw [if_neg (by omega), if_pos trivial]
  obtain ⟨a, ha⟩ := List.length_eq_one.1 (resize_scores_length stale 1)
  rw [ha]
  rfl

/-- Every predict entry of a built tree equals the leaf's root-relative
mass, for every leaf count (the two degenerate cases included). -/
theorem predict_getD_mass (k : Nat) (hk : 1 ≤ k) (scorer : Nat → ℚ × ℚ)
    (stale : List ℚ) :
    (predict (built_tree k) scorer stale).length = k ∧
      ∀ i, i < k → (predict (built_tree k) scorer stale).getD i 0 =
        node_mass (built_tree k) scorer i := by
  by_cases h1 : k = 1
  · subst h1
    rw [predict_one scorer stale]
    refine ⟨rfl, ?_⟩
    intro i hi
    have hi0 : i = 0 := by omega
    subst hi0
    obtain ⟨-, -, -, hroot, -, hinv⟩ := built_tree_core 1 (by omega)
    have hpar : parent_of (built_tree 1).nodes 0 = none := parent_of_root hinv
    rw [node_mass_of_none scorer hpar]
    rfl
  · exact predict_built_eq_mass k (by omega) scorer stale

/-- C1: predict returns one score per leaf, the empty vector for k = 0
and [1] for k = 1; and for every leaf i of the built tree the entry at
index i equals the product of the scorer-supplied branch probabilities
along the root-to-leaf path of i, a path that exists and is unique. -/
theorem predict_path_product (k : Nat) (scorer : Nat → ℚ × ℚ) (stale : List ℚ) :
    (predict (built_tree k) scorer stale).length = k ∧
      (k = 0 → predict (built_tree k) scorer stale = []) ∧
      (k = 1 → predict (built_tree k) scorer stale = [1]) ∧
      ∀ i, i < k →
        is_root_leaf_path (built_tree k) (root_path (built_tree k) i) i ∧
        (∀ q, is_root_leaf_path (built_tree k) q i → q = root_path (built_tree k) i) ∧
        (predict (built_tree k) scorer stale).getD i 0 =
          path_prod (built_tree k) scorer (root_path (built_tree k) i) := by
  by_cases h0 : k = 0
  · subst h0
    rw [predict_zero scorer stale]
    exact ⟨rfl, fun _ => rfl, fun h => absurd h (by omega),
      fun i hi => absurd hi (by omega)⟩
  · have hk1 : 1 ≤ k := by omega
    obtain ⟨hlen, hval⟩ := predict_getD_mass k hk1 scorer stale
    obtain ⟨-, -, hN, hroot, -, hinv⟩ := built_tree_core k hk1
    refine ⟨hlen, fun h => absurd h h0,
      fun h => by rw [h]; exact predict_one scorer stale, ?_⟩
    intro i hi
    have hilt : i < (built_tree k).nodes.length := by omega
    have hpath : is_root_leaf_path (built_tree k) (root_path (built_tree k) i) i := by
      refine ⟨?_, ?_, ?_⟩
      · rw [root_path, List.head?_reverse, hroot]
        exact root_path_getLast hinv (built_tree k).nodes.length i (by omega) hilt
      · rw [root_path, List.getLast?_reverse]
        rfl
      · rw [root_path]
        exact (List.chain'_reverse).2
          (root_path_chain hinv (built_tree k).nodes.length i (by omega) hilt)
    have huniq : ∀ q, is_root_leaf_path (built_tree k) q i →
        q = root_path (built_tree k) i := by
      intro q hq
      obtain ⟨hqhead, hqlast, hqchain⟩ := hq
      have hqne : q ≠ [] := by
        intro h
        rw [h] at hqhead
        simp at hqhead
      have hrevne : q.reverse ≠ [] := by simpa using hqne
      obtain ⟨j, u, hju⟩ := List.exists_cons_of_ne_nil hrevne
      have hh : q.reverse.head? = q.getLast? := List.head?_reverse q
      rw [hju, hqlast] at hh
      have hji : j = i := by simpa using hh
      rw [hji] at hju
      have hchain' : List.Chain' (flip (child_step (built_tree k))) (i :: u) := by
        rw [← hju]
        have h2 : List.Chain' (child_step (built_tree k)) q.reverse.reverse := by
          rw [List.reverse_reverse]
          exact hqchain
        exact (List.chain'_reverse).1 h2
      have hlast' : (i :: u).getLast? = some (2 * k - 2) := by
        rw [← hju, List.getLast?_reverse, hqhead, hroot]
      have hu := up_chain_unique hinv u i hchain' hlast'
      rw [root_path, ← hu, ← hju, List.reverse_reverse]
    refine ⟨hpath, huniq, ?_⟩
    rw [hval i hi, root_path,
      path_prod_mass hinv scorer (built_tree k).nodes.length i (by omega)]

/-- Witness for predict_path_product at the spec scenario k = 4 with the
scorer from section 8 of the specification. -/
theorem predict_path_product_witness :
    ((0 : Nat) < 4) ∧
      (predict (built_tree 4)
          (fun idx => if idx = 0 then ((6 : ℚ)/10, 4/10)
            else if idx = 1 then (3/10, 7/10) else (9/10, 1/10)) []).getD 0 0 =
        path_prod (built_tree 4)
          (fun idx => if idx = 0 then ((6 : ℚ)/10, 4/10)
            else if idx = 1 then (3/10, 7/10) else (9/10, 1/10))
          (root_path (built_tree 4) 0) :=
  ⟨by decide,
    ((predict_path_product 4
        (fun idx => if idx = 0 then ((6 : ℚ)/10, 4/10)
          else if idx = 1 then (3/10, 7/10) else (9/10, 1/10)) []).2.2.2 0
      (by decide)).2.2⟩

/-- C10: in the built tree with at least two actions every leaf is the
child of exactly one internal node, so the reverse propagation pass
writes every score slot, and the returned vector does not depend on the
stale content the reused buffer held before the call. -/
theorem predict_stale_independent (k : Nat) (hk : 2 ≤ k) (scorer : Nat → ℚ × ℚ) :
    (∀ i, i < k → parent_count (built_tree k).nodes i = 1) ∧
      ∀ stale1 stale2 : List ℚ,
        predict (built_tree k) scorer stale1 = predict (built_tree k) scorer stale2 := by
  obtain ⟨-, -, hN, -, -, hinv⟩ := built_tree_core k (by omega)
  constructor
  · intro i hi
    rw [hinv.pcount i (by omega), if_neg (by simp; omega)]
  · intro s1 s2
    obtain ⟨hl1, hv1⟩ := predict_built_eq_mass k hk scorer s1
    obtain ⟨hl2, hv2⟩ := predict_built_eq_mass k hk scorer s2
    apply List.ext_get (by rw [hl1, hl2])
    intro idx h1 h2
    have hik : idx < k := by
      rw [hl1] at h1
      exact h1
    rw [← listGetD_eq_get _ 0 h1, ← listGetD_eq_get _ 0 h2, hv1 idx hik, hv2 idx hik]

/-- Witness for predict_stale_independent at k = 2 with nonempty stale
content. -/
theorem predict_stale_independent_witness :
    ((2 : Nat) ≤ 2) ∧
      predict (built_tree 2) (fun _ => ((1 : ℚ)/4, 3/4)) [5, 7] =
        predict (built_tree 2) (fun _ => ((1 : ℚ)/4, 3/4)) [] :=
  ⟨by decide, (predict_stale_independent 2 (by decide) _).2 [5, 7] []⟩

theorem list_sum_eq_range_sum (l : List ℚ) (f : Nat → ℚ)
    (h : ∀ i, i < l.length → l.getD i 0 = f i) :
    l.sum = ∑ i ∈ Finset.range l.length, f i := by
  induction l generalizing f with
  | nil => simp
  | cons a tl ih =>
    have h0 : a = f 0 := by
      have ha := h 0 (by simp)
      simpa using ha
    have htl : ∀ i, i < tl.length → tl.getD i 0 = (fun i => f (i + 1)) i := by
      intro i hi
      have hsucc := h (i + 1) (by simp only [List.length_cons]; omega)
      simpa using hsucc
    rw [List.sum_cons, ih (fun i => f (i + 1)) htl, List.length_cons,
      Finset.sum_range_succ', h0]
    ring

theorem frontier_sum_top (k : Nat) (hk : 1 ≤ k) (scorer : Nat → ℚ × ℚ) :
    frontier_sum k scorer (2 * k - 1) = 1 := by
  obtain ⟨-, -, hN, -, -, hinv⟩ := built_tree_core k hk
  rw [frontier_sum]
  rw [Finset.sum_eq_single_of_mem (2 * k - 2) (Finset.mem_range.2 (by omega))]
  · have hpar : parent_of (built_tree k).nodes (2 * k - 2) = none :=
      parent_of_root hinv
    have hof : on_frontier k (2 * k - 1) (2 * k - 2) = true := by
      rw [on_frontier, hpar]
      simp only [Bool.and_true, decide_eq_true_eq]
      omega
    rw [if_pos hof, node_mass_of_none scorer hpar]
  · intro b hb hbne
    have hblt : b < 2 * k - 1 := Finset.mem_range.1 hb
    have hof : on_frontier k (2 * k - 1) b = false := by
      rw [on_frontier]
      cases hpar : parent_of (built_tree k).nodes b with
      | none =>
        exfalso
        obtain ⟨p, hfind, -⟩ := parent_of_spec hinv (j := b) (by omega) hbne
        rw [hpar] at hfind
        simp at hfind
      | some p =>
        obtain ⟨-, -, hplt, -⟩ := parent_of_mem_facts hinv hpar
        have hnle : ¬(2 * k - 1 ≤ p.id) := by omega
        simp [hnle]
    simp only [hof, Bool.false_eq_true, if_false]

theorem frontier_sum_step (k : Nat) (hk : 2 ≤ k) (scorer : Nat → ℚ × ℚ)
    (hs : ∀ idx, idx < k - 1 → (scorer idx).1 + (scorer idx).2 = 1)
    (m : Nat) (hmk : k ≤ m) (hmN : m < 2 * k - 1) :
    frontier_sum k scorer m = frontier_sum k scorer (m + 1) := by
  obtain ⟨hnum, -, hN, -, -, hinv⟩ := built_tree_core k (by omega)
  have hmlt : m < (built_tree k).nodes.length := by omega
  set n := (built_tree k).nodes.getD m default with hn
  have hid : n.id = m := hinv.dense m hmlt
  have hnleaf : n.is_leaf = false := by
    rcases Bool.eq_false_or_eq_true n.is_leaf with hb | hb
    · have := (hinv.leaf_iff m hmlt).1 hb
      omega
    · exact hb
  obtain ⟨hchL, hchR, hLR⟩ := hinv.children m hmlt hnleaf
  rw [← hn] at hchL hchR hLR
  have hLlt : n.left_id < (built_tree k).nodes.length := by omega
  have hRlt : n.right_id < (built_tree k).nodes.length := by omega
  have hnmem : n ∈ (built_tree k).nodes := by
    rw [hn]
    exact listGetD_mem default hmlt
  have hparL : parent_of (built_tree k).nodes n.left_id = some n := by
    obtain ⟨p, hfind, -, -, -, -, huniq⟩ :=
      parent_of_spec hinv (j := n.left_id) hLlt (by omega)
    rw [hfind, huniq n hnmem (by simp [is_parent_of, hnleaf])]
  have hparR : parent_of (built_tree k).nodes n.right_id = some n := by
    obtain ⟨p, hfind, -, -, -, -, huniq⟩ :=
      parent_of_spec hinv (j := n.right_id) hRlt (by omega)
    rw [hfind, huniq n hnmem (by simp [is_parent_of, hnleaf])]
  have hchildm : ∀ x (p : tree_node), parent_of (built_tree k).nodes x = some p →
      p.id = m → x = n.left_id ∨ x = n.right_id := by
    intro x p hpar hpm
    obtain ⟨hp, -, -, hgd⟩ := parent_of_mem_facts hinv hpar
    have hpn : p = n := by rw [← hgd, hpm, ← hn]
    rw [hpn] at hp
    simp only [is_parent_of, Bool.and_eq_true, Bool.or_eq_true, beq_iff_eq] at hp
    rcases hp.2 with h | h
    · exact Or.inl h.symm
    · exact Or.inr h.symm
  have hlb : (built_tree k).leaf_node_count = k := hnum
  have hmassL : node_mass (built_tree k) scorer n.left_id =
      node_mass (built_tree k) scorer m * (scorer (m - k)).1 := by
    rw [node_mass_parent hinv scorer hparL, hid, hlb, if_pos rfl]
  have hmassR : node_mass (built_tree k) scorer n.right_id =
      node_mass (built_tree k) scorer m * (scorer (m - k)).2 := by
    rw [node_mass_parent hinv scorer hparR, hid, hlb,
      if_neg (show ¬n.right_id = n.left_id by omega)]
  have hofmL : on_frontier k m n.left_id = true := by
    rw [on_frontier, hparL]
    simp [hid, hchL]
  have hof1L : on_frontier k (m + 1) n.left_id = false := by
    rw [on_frontier, hparL]
    simp [hid]
  have hofmR : on_frontier k m n.right_id = true := by
    rw [on_frontier, hparR]
    simp [hid, hchR]
  have hof1R : on_frontier k (m + 1) n.right_id = false := by
    rw [on_frontier, hparR]
    simp [hid]
  have hofmm : on_frontier k m m = false := by
    rw [on_frontier]
    simp
  have hof1m : on_frontier k (m + 1) m = true := by
    rw [on_frontier]
    cases hpar : parent_of (built_tree k).nodes m with
    | none => simp
    | some p =>
      obtain ⟨-, hpgt, -, -⟩ := parent_of_mem_facts hinv hpar
      simp [show m + 1 ≤ p.id by omega]
  rw [frontier_sum, frontier_sum, ← sub_eq_zero, ← Finset.sum_sub_distrib]
  have hsub : ({n.left_id, n.right_id, m} : Finset ℕ) ⊆ Finset.range (2 * k - 1) := by
    intro x hx
    simp only [Finset.mem_insert, Finset.mem_singleton] at hx
    refine Finset.mem_range.2 ?_
    rcases hx with h | h | h <;> omega
  have hzero : ∀ x ∈ Finset.range (2 * k - 1),
      x ∉ ({n.left_id, n.right_id, m} : Finset ℕ) →
      ((if on_frontier k m x then node_mass (built_tree k) scorer x else 0) -
        (if on_frontier k (m + 1) x then node_mass (built_tree k) scorer x else 0)) = 0 := by
    intro x hx hxs
    simp only [Finset.mem_insert, Finset.mem_singleton] at hxs
    push_neg at hxs
    obtain ⟨hx1, hx2, hx3⟩ := hxs
    have heq : on_frontier k m x = on_frontier k (m + 1) x := by
      rw [on_frontier, on_frontier]
      have e1 : decide (x < m) = decide (x < m + 1) := by
        by_cases hxm : x < m
        · simp [hxm, show x < m + 1 by omega]
        · simp [hxm, show ¬(x < m + 1) by omega]
      cases hpar : parent_of (built_tree k).nodes x with
      | none => rw [e1]
      | some p =>
        have hpm : p.id ≠ m := fun hpm => by
          rcases hchildm x p hpar hpm with h | h
          · exact hx1 h
          · exact hx2 h
        have e2 : decide (m ≤ p.id) = decide (m + 1 ≤ p.id) := by
          by_cases hmp : m ≤ p.id
          · simp [hmp, show m + 1 ≤ p.id by omega]
          · simp [hmp, show ¬(m + 1 ≤ p.id) by omega]
        rw [e1]
        show (decide (x < m + 1) && decide (m ≤ p.id)) =
          (decide (x < m + 1) && decide (m + 1 ≤ p.id))
        rw [e2]
    rw [heq, sub_self]
  rw [← Finset.sum_subset hsub hzero]
  have hLnotin : n.left_id ∉ ({n.right_id, m} : Finset ℕ) := by
    simp only [Finset.mem_insert, Finset.mem_singleton]
    push_neg
    omega
  have hRnotin : n.right_id ∉ ({m} : Finset ℕ) := by
    simp only [Finset.mem_singleton]
    omega
  rw [Finset.sum_insert hLnotin, Finset.sum_insert hRnotin, Finset.sum_singleton]
  rw [if_pos hofmL, if_pos hofmR]
  rw [if_neg (by rw [hof1L]; simp), if_neg (by rw [hof1R]; simp),
    if_neg (by rw [hofmm]; simp), if_pos hof1m]
  have hsm : (scorer (m - k)).1 + (scorer (m - k)).2 = 1 := hs (m - k) (by omega)
  rw [hmassL, hmassR]
  linear_combination (node_mass (built_tree k) scorer m) * hsm

theorem leaf_parent_internal (k : Nat) (hk : 2 ≤ k) {i : Nat} (hi : i < k) :
    ∃ p, parent_of (built_tree k).nodes i = some p ∧ k ≤ p.id ∧ p.id < 2 * k - 1 := by
  obtain ⟨-, -, hN, -, -, hinv⟩ := built_tree_core k (by omega)
  obtain ⟨p, hfind, hp, -, hplt, hgd, -⟩ :=
    parent_of_spec hinv (j := i) (by omega) (by omega)
  refine ⟨p, hfind, ?_, by omega⟩
  have hpl : p.is_leaf = false := by
    simp only [is_parent_of, Bool.and_eq_true, Bool.not_eq_true'] at hp
    exact hp.1
  have h := hinv.leaf_iff p.id hplt
  rw [hgd] at h
  rcases Nat.lt_or_ge p.id k with hlt | hge
  · exact absurd (h.2 hlt) (by rw [hpl]; simp)
  · exact hge

theorem frontier_sum_bottom (k : Nat) (hk : 2 ≤ k) (scorer : Nat → ℚ × ℚ) :
    frontier_sum k scorer k =
      ∑ i ∈ Finset.range k, node_mass (built_tree k) scorer i := by
  rw [frontier_sum]
  have hsub : Finset.range k ⊆ Finset.range (2 * k - 1) :=
    Finset.range_subset.2 (by omega)
  have hzero : ∀ x ∈ Finset.range (2 * k - 1), x ∉ Finset.range k →
      (if on_frontier k k x then node_mass (built_tree k) scorer x else 0) = 0 := by
    intro x hx hxn
    have hxk : ¬x < k := by simpa using hxn
    have hof : on_frontier k k x = false := by
      rw [on_frontier]
      simp [hxk]
    simp [hof]
  rw [← Finset.sum_subset hsub hzero]
  apply Finset.sum_congr rfl
  intro i hi
  have hik : i < k := Finset.mem_range.1 hi
  obtain ⟨p, hfind, hpk, -⟩ := leaf_parent_internal k hk hik
  have hof : on_frontier k k i = true := by
    rw [on_frontier, hfind]
    simp [hik, hpk]
  rw [if_pos hof]

theorem frontier_sum_const (k : Nat) (hk : 2 ≤ k) (scorer : Nat → ℚ × ℚ)
    (hs : ∀ idx, idx < k - 1 → (scorer idx).1 + (scorer idx).2 = 1) :
    ∀ (d m : Nat), k ≤ m → m ≤ 2 * k - 1 → 2 * k - 1 - m ≤ d →
      frontier_sum k scorer m = 1 := by
  intro d
  induction d with
  | zero =>
    intro m h1 h2 h3
    have hm : m = 2 * k - 1 := by omega
    rw [hm]
    exact frontier_sum_top k (by omega) scorer
  | succ d ih =>
    intro m h1 h2 h3
    by_cases hm : m = 2 * k - 1
    · rw [hm]
      exact frontier_sum_top k (by omega) scorer
    · rw [frontier_sum_step k hk scorer hs m h1 (by omega)]
      exact ih (m + 1) (by omega) (by omega) (by omega)

theorem mass_sum_one (k : Nat) (hk : 1 ≤ k) (scorer : Nat → ℚ × ℚ)
    (hs : ∀ idx, idx < k - 1 → (scorer idx).1 + (scorer idx).2 = 1) :
    ∑ i ∈ Finset.range k, node_mass (built_tree k) scorer i = 1 := by
  by_cases h1 : k = 1
  · subst h1
    rw [Finset.sum_range_one]
    obtain ⟨-, -, -, -, -, hinv⟩ := built_tree_core 1 (by omega)
    rw [node_mass_of_none scorer (parent_of_root hinv)]
  · have hk2 : 2 ≤ k := by omega
    rw [← frontier_sum_bottom k hk2 scorer]
    exact frontier_sum_const k hk2 scorer hs (2 * k - 1 - k) k (le_refl k)
      (by omega) (le_refl _)

/-- C3: when the scorer's pair sums to 1 at every internal node, the
score vector returned by predict for a built tree with at least one
action sums to exactly 1; the predictor applies no normalization (each
entry is exactly the raw path product, see predict_path_product). -/
theorem predict_sum_one (k : Nat) (hk : 1 ≤ k) (scorer : Nat → ℚ × ℚ)
    (stale : List ℚ)
    (hs : ∀ idx, idx < (built_tree k).internal_node_count →
      (scorer idx).1 + (scorer idx).2 = 1) :
    (predict (built_tree k) scorer stale).sum = 1 := by
  obtain ⟨hlen, hval⟩ := predict_getD_mass k hk scorer stale
  have hs' : ∀ idx, idx < k - 1 → (scorer idx).1 + (scorer idx).2 = 1 := by
    intro idx hidx
    exact hs idx (by rw [built_tree_internal_count]; exact hidx)
  rw [list_sum_eq_range_sum _ (fun i => node_mass (built_tree k) scorer i)
    (fun i hi => hval i (by rw [hlen] at hi; exact hi))]
  rw [hlen]
  exact mass_sum_one k hk scorer hs'

/-- Witness for predict_sum_one at k = 4 with the uniform half-half
scorer. -/
theorem predict_sum_one_witness :
    ((1 : Nat) ≤ 4) ∧
      (predict (built_tree 4) (fun _ => ((1 : ℚ)/2, 1/2)) []).sum = 1 :=
  ⟨by decide, predict_sum_one 4 (by decide) (fun _ => ((1 : ℚ)/2, 1/2)) []
    (fun idx _ => by norm_num)⟩

theorem height_in_congr {k : Nat} {ns : List tree_node} {ts : List Nat}
    (hinv : tree_inv k ns ts) :
    ∀ (f1 f2 j : Nat), j < f1 → j < f2 → j < ns.length →
      height_in ns f1 j = height_in ns f2 j := by
  intro f1
  induction f1 with
  | zero =>
    intro f2 j h1 h2 h3
    omega
  | succ f1 ih =>
    intro f2 j h1 h2 h3
    cases f2 with
    | zero => omega
    | succ f2 =>
      rw [height_in, height_in]
      by_cases hl : (ns.getD j default).is_leaf = true
      · rw [if_pos hl, if_pos hl]
      · rw [if_neg hl, if_neg hl]
        have hch := hinv.children j h3 (by simpa using hl)
        rw [ih f2 (ns.getD j default).left_id (by omega) (by omega) (by omega),
          ih f2 (ns.getD j default).right_id (by omega) (by omega) (by omega)]

theorem height_in_ext {k : Nat} {ns : List tree_node} {ts : List Nat}
    (hinv : tree_inv k ns ts) (ext : List tree_node) :
    ∀ (f j : Nat), j < ns.length →
      height_in (ns ++ ext) f j = height_in ns f j := by
  intro f
  induction f with
  | zero =>
    intro j hj
    rfl
  | succ f ih =>
    intro j hj
    rw [height_in, height_in, listGetD_append_left default hj]
    by_cases hl : (ns.getD j default).is_leaf = true
    · rw [if_pos hl, if_pos hl]
    · rw [if_neg hl, if_neg hl]
      have hch := hinv.children j hj (by simpa using hl)
      rw [ih (ns.getD j default).left_id (by omega),
        ih (ns.getD j default).right_id (by omega)]

theorem build_rounds_height (k : Nat) :
    ∀ (r fuel : Nat) (ns : List tree_node) (ts : List Nat) (h : Nat),
      tree_inv k ns ts → ts.length = 2 ^ r → ts.length ≤ fuel →
      (∀ x ∈ ts, height_in ns ns.length x = h) →
      height_in (build_rounds fuel ns ts).1 (build_rounds fuel ns ts).1.length
        ((build_rounds fuel ns ts).2.headD 0) = h + r := by
  intro r
  induction r with
  | zero =>
    intro fuel ns ts h hinv h2 hf hh
    have h1 : ts.length = 1 := by simpa using h2
    obtain ⟨x, hx⟩ := List.length_eq_one.1 h1
    have hret : build_rounds fuel ns ts = (ns, ts) := by
      cases fuel with
      | zero => rfl
      | succ fuel => rw [build_rounds_succ, if_neg (by rw [h1]; omega)]
    rw [hret, hx]
    have hmem : x ∈ ts := by
      rw [hx]
      simp
    have hval := hh x hmem
    simpa using hval
  | succ r ih =>
    intro fuel ns ts h hinv h2 hf hh
    have hp1 : 1 ≤ 2 ^ r := Nat.one_le_two_pow
    have hpow : ts.length = 2 * 2 ^ r := by
      rw [h2]
      ring
    have hlen2 : 1 < ts.length := by omega
    cases fuel with
    | zero => omega
    | succ fuel =>
      rw [build_rounds_succ, if_pos hlen2]
      have hstep := tree_inv_step hinv hlen2
      have heven : ¬ts.length % 2 = 1 := by omega
      have hrlen : (round_ts ns ts).length = 2 ^ r := by
        rw [round_ts_length, pairUp_length, if_neg heven]
        omega
      have hf' : (round_ts ns ts).length ≤ fuel := by
        rw [hrlen]
        omega
      have hlen' : (ns ++ round_nodes ns ts).length =
          ns.length + (pairUp ts).length := by
        simp [round_nodes_length]
      have hP1 : 1 ≤ (pairUp ts).length := by
        rw [pairUp_length]
        omega
      have hh' : ∀ x ∈ round_ts ns ts,
          height_in (ns ++ round_nodes ns ts) (ns ++ round_nodes ns ts).length x =
            h + 1 := by
        intro x hx
        rcases mem_round_ts.1 hx with ⟨j, hj, rfl⟩ | ⟨hodd, -⟩
        · have hA : (ns ++ round_nodes ns ts).getD (ns.length + j) default =
              tree_node.mk (ns.length + j) ((pairUp ts).getD j (0, 0)).1
                ((pairUp ts).getD j (0, 0)).2 false := by
            rw [listGetD_append_right default (by omega)]
            have he : ns.length + j - ns.length = j := by omega
            rw [he, round_nodes_getD ns ts hj]
          have hpm : (pairUp ts).getD j (0, 0) ∈ pairUp ts := listGetD_mem (0, 0) hj
          obtain ⟨hmem1, hmem2⟩ := pairUp_mem hpm
          have ha_lt := hinv.ts_lt _ hmem1
          have hb_lt := hinv.ts_lt _ hmem2
          have hca : height_in (ns ++ round_nodes ns ts)
              ((ns ++ round_nodes ns ts).length - 1) ((pairUp ts).getD j (0, 0)).1 =
              h := by
            rw [height_in_congr hstep ((ns ++ round_nodes ns ts).length - 1)
              (ns ++ round_nodes ns ts).length ((pairUp ts).getD j (0, 0)).1
              (by omega) (by omega) (by omega)]
            rw [height_in_ext hinv (round_nodes ns ts) _ _ ha_lt]
            rw [height_in_congr hinv (ns ++ round_nodes ns ts).length ns.length
              ((pairUp ts).getD j (0, 0)).1 (by omega) (by omega) ha_lt]
            exact hh _ hmem1
          have hcb : height_in (ns ++ round_nodes ns ts)
              ((ns ++ round_nodes ns ts).length - 1) ((pairUp ts).getD j (0, 0)).2 =
              h := by
            rw [height_in_congr hstep ((ns ++ round_nodes ns ts).length - 1)
              (ns ++ round_nodes ns ts).length ((pairUp ts).getD j (0, 0)).2
              (by omega) (by omega) (by omega)]
            rw [height_in_ext hinv (round_nodes ns ts) _ _ hb_lt]
            rw [height_in_congr hinv (ns ++ round_nodes ns ts).length ns.length
              ((pairUp ts).getD j (0, 0)).2 (by omega) (by omega) hb_lt]
            exact hh _ hmem2
          have hfuel : (ns ++ round_nodes ns ts).length =
              ((ns ++ round_nodes ns ts).length - 1) + 1 := by
            rw [hlen']
            omega
          conv_lhs => rw [hfuel]
          rw [height_in, hA]
          rw [if_neg (by simp)]
          show 1 + max
            (height_in (ns ++ round_nodes ns ts)
              ((ns ++ round_nodes ns ts).length - 1) ((pairUp ts).getD j (0, 0)).1)
            (height_in (ns ++ round_nodes ns ts)
              ((ns ++ round_nodes ns ts).length - 1) ((pairUp ts).getD j (0, 0)).2) =
            h + 1
          rw [hca, hcb, Nat.max_self]
          omega
        · omega
      have hres := ih fuel (ns ++ round_nodes ns ts) (round_ts ns ts) (h + 1)
        hstep hrlen hf' hh'
      rw [hres]
      omega

/-- C5 (amended): for every leaf count that is a power of two, k = 2 ^ m,
the tree produced by build(k) has maximum root-to-leaf edge count exactly
m = ceil(log2 k): each tournament round pairs all current candidates, so
the height grows by exactly one per round.  (The original claim's further
clause, that any two leaf depths differ by at most 1 for every k, is
false: see the counterexample at k = 5.) -/
theorem built_tree_depth_pow (m : Nat) :
    tree_depth (built_tree (2 ^ m)) = m := by
  by_cases hm : m = 0
  · subst hm
    decide
  · have hk2 : 2 ≤ 2 ^ m := by
      calc 2 = 2 ^ 1 := by norm_num
      _ ≤ 2 ^ m := Nat.pow_le_pow_right (by omega) (by omega)
    have hinv0 := tree_inv_init (2 ^ m) (by omega)
    have hh0 : ∀ x ∈ List.range (2 ^ m),
        height_in (leaf_nodes0 (2 ^ m)) (leaf_nodes0 (2 ^ m)).length x = 0 := by
      intro x hx
      have hxk : x < 2 ^ m := List.mem_range.1 hx
      have hflen : (leaf_nodes0 (2 ^ m)).length =
          ((leaf_nodes0 (2 ^ m)).length - 1) + 1 := by
        rw [leaf_nodes0_length]
        omega
      rw [hflen, height_in, leaf_nodes0_getD (2 ^ m) hxk, if_pos rfl]
    have hmain := build_rounds_height (2 ^ m) m (2 ^ m) (leaf_nodes0 (2 ^ m))
      (List.range (2 ^ m)) 0 hinv0 (by simp) (by simp) hh0
    rw [Nat.zero_add] at hmain
    rw [tree_depth, built_tree_eq (2 ^ m) (by omega)]
    exact hmain

/-- Counterexample to the second clause of C5: in the tree built for
k = 5 leaves, leaf 0 sits at depth 3 while leaf 4 sits at depth 1, so two
leaf depths differ by 2 > 1.  (The carried-over odd tournament entry is
paired much later than its round mates.) -/
theorem built_tree_five_depths :
    leaf_depth (built_tree 5) 0 = 3 ∧ leaf_depth (built_tree 5) 4 = 1 := by
  decide
